import Mathlib

/-!
Verification development for the workflow engine (backend of the One repository).

The Python sources under backend/ are shallowly embedded here:

* `backend/app/models/*.py`   — data model (`Value`, `PyDict`, statuses, records);
* `backend/app/core/engine.py` — `_get_execution_order`, `_collect_input_data`,
  `_run_workflow`, `stop_execution`;
* `backend/nodes/flow.py`      — `group_by_dependencies`;
* `backend/nodes/scheduler.py` — `ScheduledTask.__lt__`, `heapq.heappush`,
  `optimize_schedule` and its helpers;
* `backend/utils/executor.py`  — `execute_isolated` (timeout path),
  `parse_isolated_result`, `stop_execution`.

Python dicts are modelled as association lists with insertion-order semantics
(`dget`, `dset`, `dupdate`), datetimes as an abstract `Nat` clock, and the
node-executor plugin (whose implementation `app/core/executor.py` is consumed
through the uniform `execute` interface) as an oracle parameter.
-/

namespace One

/-- Model of a Python value (the `Any` payloads moved around by the engine):
strings, integers, booleans, `None`, JSON-style dictionaries and lists. -/
inductive Value where
  | str : String → Value
  | int : Int → Value
  | bool : Bool → Value
  | none : Value
  | dict : List (String × Value) → Value
  | list : List Value → Value

/-- A Python `Dict[str, Any]` with insertion-order semantics. -/
abbrev PyDict := List (String × Value)

/-- `d.get(k)` / `d[k]`: first binding of `k` (bindings are kept unique by `dset`). -/
def dget (m : List (String × α)) (k : String) : Option α :=
  match m with
  | [] => Option.none
  | (k2, v) :: rest => if k2 = k then some v else dget rest k

/-- `k in d`. -/
def dmem (m : List (String × α)) (k : String) : Bool :=
  match m with
  | [] => false
  | (k2, _) :: rest => k2 = k || dmem rest k

/-- `d[k] = v`: overwrite in place if the key exists, else append (CPython
dicts preserve the original position of an overwritten key). -/
def dset (m : List (String × α)) (k : String) (v : α) : List (String × α) :=
  match m with
  | [] => [(k, v)]
  | (k2, v2) :: rest => if k2 = k then (k2, v) :: rest else (k2, v2) :: dset rest k v

/-- `d.update(other)`: fold `dset` over the other dict's bindings in order. -/
def dupdate (m other : List (String × α)) : List (String × α) :=
  other.foldl (fun acc kv => dset acc kv.1 kv.2) m

/-- Python truthiness of a `Value` (used for `settings.get("continueOnError", False)`). -/
def pyTruthy : Value → Bool
  | .str s => s ≠ ""
  | .int n => n ≠ 0
  | .bool b => b
  | .none => false
  | .dict d => !d.isEmpty
  | .list l => !l.isEmpty

/-- Truthiness of an `Optional[str]` (`None` and `""` are falsy), used for
`if edge.sourceHandle and edge.targetHandle` in `_collect_input_data`. -/
def truthyStr : Option String → Bool
  | Option.none => false
  | some s => s ≠ ""

/-! ### Data model (`backend/app/models/workflow.py`, `node.py`, `execution.py`)

Presentation-only fields that the embedded engine code never reads
(`Edge.id/type/animated/style`, `Node.position`, port declarations, workflow
metadata) are omitted; every field read by an embedded function is kept. -/

/-- `Edge`: source node+port → target node+port. -/
structure Edge where
  source : String
  target : String
  sourceHandle : Option String
  targetHandle : Option String
deriving DecidableEq, Repr

/-- `Node`: the engine reads `node.id` and `node.data.label`. -/
structure Node where
  id : String
  label : String
deriving DecidableEq, Repr

/-- `Workflow`: nodes in declaration order, edges, and the `settings` dict. -/
structure Workflow where
  nodes : List Node
  edges : List Edge
  settings : PyDict

/-- `ExecutionStatus` (`execution.py`). -/
inductive ExecutionStatus where
  | pending | running | success | failed | cancelled | timeout
deriving DecidableEq, Repr

/-- `NodeExecutionStatus` (`execution.py`). -/
inductive NodeExecutionStatus where
  | waiting | running | success | failed | skipped
deriving DecidableEq, Repr

/-- `ExecutionLog` (timestamps abstracted away; `level`, optional `node_id`,
`message`, optional `data` kept). -/
structure ExecutionLog where
  level : String
  node_id : Option String
  message : String
  data : Option PyDict

/-- `NodeExecution` record; datetimes are modelled by an abstract `Nat` clock. -/
structure NodeExecution where
  node_id : String
  status : NodeExecutionStatus
  started_at : Option Nat
  completed_at : Option Nat
  input_data : PyDict
  output_data : Option PyDict
  error : Option String
  logs : List ExecutionLog

/-- `WorkflowExecution` instance. -/
structure WorkflowExecution where
  id : String
  workflow_id : String
  status : ExecutionStatus
  mode : String
  started_at : Option Nat
  completed_at : Option Nat
  triggered_by : Option String
  node_executions : List (String × NodeExecution)
  logs : List ExecutionLog
  context : PyDict
  error : Option String

/-! ### `_collect_input_data` (`engine.py` lines 210-236) -/

/-- One iteration of the edge loop in `_collect_input_data`: for an edge into
the node, fetch the upstream output (`node_outputs.get(edge.source, {})`);
if both handles are truthy, copy the single port value when the source port
key is present (silently skip otherwise); else merge the whole output. -/
def collectEdge (nodeId : String) (nodeOutputs : List (String × PyDict))
    (acc : PyDict) (e : Edge) : PyDict :=
  if e.target = nodeId then
    let sourceOutput := (dget nodeOutputs e.source).getD []
    if truthyStr e.sourceHandle && truthyStr e.targetHandle then
      match e.sourceHandle, e.targetHandle with
      | some sh, some th =>
          match dget sourceOutput sh with
          | some v => dset acc th v
          | Option.none => acc
      | _, _ => acc
    else
      dupdate acc sourceOutput
  else acc

/-- `_collect_input_data(node, workflow, node_outputs, context)`: fold the edge
loop over `workflow.edges`, then bind the reserved key `"_context"` to the
instance's shared context. -/
def collectInputData (node : Node) (w : Workflow)
    (nodeOutputs : List (String × PyDict)) (context : PyDict) : PyDict :=
  let inputData := w.edges.foldl (collectEdge node.id nodeOutputs) []
  dset inputData "_context" (Value.dict context)

/-! ### `stop_execution` (`engine.py` lines 331-336) -/

/-- `stop_execution(execution_id)`: look the execution up; if present and
`RUNNING`, set its status to `CANCELLED`.  The code does nothing else (the
comment on line 336 records that cancelling the running task is still to be
added). -/
def stopExecution (executions : List (String × WorkflowExecution))
    (executionId : String) : List (String × WorkflowExecution) :=
  match dget executions executionId with
  | some ex =>
      if ex.status = ExecutionStatus.running then
        dset executions executionId { ex with status := ExecutionStatus.cancelled }
      else executions
  | Option.none => executions

/-! ### `_get_execution_order` (`engine.py` lines 182-208)

The Python code builds `dependencies: Dict[str, Set[str]]` with one key per
node and one entry per edge (`dependencies[edge.target].add(edge.source)`),
then runs a visited-set DFS appending each node after its dependencies.
Sets are modelled as duplicate-free lists in first-insertion order (a Python
set's iteration order is unspecified; no claim depends on it).  The recursion
is embedded with explicit fuel; `visit_le_fuel`-style lemmas below show that
the fuel `w.nodes.length + 1` supplied by `getExecutionOrder` is never
exhausted on well-formed graphs, so the embedding computes exactly what the
Python recursion computes. -/

/-- The ids of the workflow's nodes, in declaration order. -/
def nodeIds (w : Workflow) : List String := w.nodes.map Node.id

/-- `dependencies[n]`: sources of the edges targeting `n`, deduplicated
(set semantics), in first-occurrence order. -/
def depsOf (w : Workflow) (n : String) : List String :=
  (((w.edges.filter (fun e => e.target = n)).map Edge.source)).dedup

/-- The DFS state: `(visited, order)`. -/
abbrev DfsState := List String × List String

/-- `visit(node_id)`: return if already visited, else mark visited, visit all
dependencies, then append the node to the order.  Fuel bounds the recursion
depth; each level of real recursion marks a previously unvisited node, so
`|nodes| + 1` fuel suffices on well-formed graphs (proved below). -/
def visit (w : Workflow) : Nat → String → DfsState → DfsState
  | 0, _, s => s
  | fuel + 1, n, s =>
      if n ∈ s.1 then s
      else
        let s1 : DfsState := (s.1 ++ [n], s.2)
        let s2 := (depsOf w n).foldl (fun acc d => visit w fuel d acc) s1
        (s2.1, s2.2 ++ [n])

/-- `_get_execution_order(workflow)`: run `visit` over the nodes in
declaration order and return the accumulated order. -/
def getExecutionOrder (w : Workflow) : List String :=
  (w.nodes.foldl (fun s node => visit w (w.nodes.length + 1) node.id s) ([], [])).2

/-- Well-formedness of a workflow graph, the invariant stated by the data
model (§3): node ids are unique and edge endpoints reference existing nodes.
On graphs violating it the Python code raises `KeyError` from the
`dependencies` dict; every claim about the scheduler assumes it. -/
def WellFormed (w : Workflow) : Prop :=
  (nodeIds w).Nodup ∧
    ∀ e ∈ w.edges, e.source ∈ nodeIds w ∧ e.target ∈ nodeIds w

/-- Acyclicity of the dependency graph, expressed as the existence of a
topological numbering: every edge strictly increases the rank.  For finite
graphs this is the standard equivalent of having no directed cycle
(`acyclic_no_cycle` below derives the no-cycle reading). -/
def Acyclic (w : Workflow) : Prop :=
  ∃ rank : String → Nat, ∀ e ∈ w.edges, rank e.source < rank e.target

/-! ### `group_by_dependencies` (`flow.py` lines 314-338) -/

/-- `ExecutionPlanEntry` produced by `create_execution_plan` (`flow.py`);
the mutable `order` ordinal is not read by `group_by_dependencies` and is
omitted. -/
structure PlanItem where
  nodeId : String
  nodeType : String
  isManager : Bool
  dependencies : List String
  estimatedTime : Nat
deriving DecidableEq, Repr

/-- One pass of the frontier scan: the items not yet completed whose
dependencies are all completed, in plan order. -/
def frontier (plan : List PlanItem) (completed : List String) : List PlanItem :=
  plan.filter (fun item =>
    decide (item.nodeId ∉ completed) && item.dependencies.all (fun d => decide (d ∈ completed)))

/-- `completed.add(item['nodeId'])` folded over a group (set semantics:
duplicate-free list, insertion order). -/
def addIds (completed : List String) (group : List PlanItem) : List String :=
  group.foldl (fun c item => if item.nodeId ∈ c then c else c ++ [item.nodeId]) completed

/-- The `while len(completed) < len(execution_plan)` loop of
`group_by_dependencies`: collect a frontier; if it is empty, `break`
(the code comments this as cycle avoidance — the remaining items are
silently dropped); otherwise emit it as a group and mark it completed.
Fuel bounds the iterations; each emitted group completes at least one new
id, so `plan.length + 1` iterations are never exhausted (the loop condition
stops first). -/
def groupLoop (plan : List PlanItem) : Nat → List String → List (List PlanItem)
  | 0, _ => []
  | fuel + 1, completed =>
      if completed.length < plan.length then
        let g := frontier plan completed
        if g.isEmpty then []
        else g :: groupLoop plan fuel (addIds completed g)
      else []

/-- `group_by_dependencies(execution_plan)`. -/
def groupByDependencies (plan : List PlanItem) : List (List PlanItem) :=
  groupLoop plan (plan.length + 1) []

/-! ### `_run_workflow` (`engine.py` lines 98-180)

The run loop is sequential: it walks `_get_execution_order` and executes one
node at a time.  `executor.execute_node` (the Node Executor Registry,
`app/core/executor.py`, consumed through the uniform `execute` interface) is
modelled as an oracle `Node → PyDict → Except String PyDict`; a raised
exception carries `str(e)`.  WebSocket notifications (`_notify_*`) only fan
events out to subscribers and are dropped; `_add_log` appends are kept.
`datetime.now()` is an abstract `Nat` clock threaded through the state. -/

/-- The node-executor oracle standing for `self.executor.execute_node`. -/
abbrev ExecOracle := Node → PyDict → Except String PyDict

/-- Mutate the record stored under an existing key in place (Python:
`execution.node_executions[node_id]` is fetched and mutated; the key exists
for every node of the workflow by initialization). -/
def dmodify (m : List (String × α)) (k : String) (f : α → α) : List (String × α) :=
  match m with
  | [] => []
  | (k2, v) :: rest => if k2 = k then (k2, f v) :: rest else (k2, v) :: dmodify rest k f

/-- `workflow.settings.get("continueOnError", False)` under Python truthiness. -/
def continueOnError (w : Workflow) : Bool :=
  pyTruthy ((dget w.settings "continueOnError").getD (Value.bool false))

/-- The in-flight state of one run: the execution record being mutated, the
`node_outputs` accumulator, and the clock. -/
structure RunState where
  execution : WorkflowExecution
  nodeOutputs : List (String × PyDict)
  clock : Nat

/-- The body of the `for node_id in execution_order` loop (lines 111-160):
collect input, mark the node Running, invoke the executor; on success store
the output and mark Success; on error mark Failed with `str(e)` preserved,
append an error log entry, and re-raise unless `continueOnError` is set.
The returned `Option String` is the exception propagating out of the loop
(`none` – no exception). -/
def runNode (w : Workflow) (oracle : ExecOracle) (nodeId : String)
    (s : RunState) : RunState × Option String :=
  match w.nodes.find? (fun n => n.id = nodeId) with
  | Option.none => (s, some "")
  | some node =>
      let inputData := collectInputData node w s.nodeOutputs s.execution.context
      let ex1 := { s.execution with
        node_executions := dmodify s.execution.node_executions nodeId
          (fun ne => { ne with
            input_data := inputData
            status := NodeExecutionStatus.running
            started_at := some s.clock }) }
      match oracle node inputData with
      | .ok outputData =>
          let ex2 := { ex1 with
            node_executions := dmodify ex1.node_executions nodeId
              (fun ne => { ne with
                output_data := some outputData
                status := NodeExecutionStatus.success
                completed_at := some (s.clock + 1) }) }
          (⟨ex2, dset s.nodeOutputs nodeId outputData, s.clock + 2⟩, Option.none)
      | .error msg =>
          let ex2 := { ex1 with
            node_executions := dmodify ex1.node_executions nodeId
              (fun ne => { ne with
                status := NodeExecutionStatus.failed
                error := some msg
                completed_at := some (s.clock + 1) }) }
          let ex3 := { ex2 with
            logs := ex2.logs ++
              [⟨"error", Option.none, "Node " ++ node.label ++ " failed: " ++ msg,
                some [("node_id", Value.str nodeId)]⟩] }
          (⟨ex3, s.nodeOutputs, s.clock + 2⟩,
            if continueOnError w then Option.none else some msg)

/-- The loop over the execution order, stopping at the first re-raised
exception. -/
def runNodes (w : Workflow) (oracle : ExecOracle) :
    List String → RunState → RunState × Option String
  | [], s => (s, Option.none)
  | nodeId :: rest, s =>
      match runNode w oracle nodeId s with
      | (s2, Option.none) => runNodes w oracle rest s2
      | (s2, some e) => (s2, some e)

/-- Lines 162-177: on normal loop exit mark the instance Success; on an
exception reaching the outer handler mark it Failed with the message and a
terminal log entry.  (The `asyncio.CancelledError` arm on line 166 is
unreachable in this engine: no task handle is stored and nothing ever
cancels the spawned task, so the deterministic run never observes it.) -/
def finishRun (r : RunState × Option String) : RunState :=
  match r with
  | (s, Option.none) =>
      { s with execution := { s.execution with
          status := ExecutionStatus.success
          completed_at := some s.clock } }
  | (s, some e) =>
      { s with execution := { s.execution with
          status := ExecutionStatus.failed
          error := some e
          completed_at := some s.clock
          logs := s.execution.logs ++
            [⟨"error", Option.none, "Execution failed: " ++ e, Option.none⟩] } }

/-- `_run_workflow(execution, workflow)` run to completion without
interruption: set Running, walk the order, finish. -/
def runWorkflow (w : Workflow) (oracle : ExecOracle)
    (execution : WorkflowExecution) (clock0 : Nat) : RunState :=
  let ex0 := { execution with status := ExecutionStatus.running }
  finishRun (runNodes w oracle (getExecutionOrder w) ⟨ex0, [], clock0⟩)

/-- A fresh `NodeExecution` as initialized by `execute_workflow` (line 83). -/
def initNodeExecution (nid : String) : NodeExecution :=
  ⟨nid, NodeExecutionStatus.waiting, Option.none, Option.none, [], Option.none,
    Option.none, []⟩

/-- `execute_workflow` lines 72-87: create the instance with every node
Waiting. -/
def createExecution (w : Workflow) (eid workflowId mode : String)
    (triggeredBy : Option String) (context : PyDict) (now : Nat) :
    WorkflowExecution :=
  { id := eid
    workflow_id := workflowId
    status := ExecutionStatus.pending
    mode := mode
    started_at := some now
    completed_at := Option.none
    triggered_by := triggeredBy
    node_executions :=
      w.nodes.foldl (fun m n => dset m n.id (initNodeExecution n.id)) []
    logs := []
    context := context
    error := Option.none }

/-! ### Scheduler node (`backend/nodes/scheduler.py`)

`execute` pushes each new task onto `self.task_queue` with `heapq.heappush`
and returns the list produced by `optimize_schedule`.  `heapq` is a binary
min-heap over `ScheduledTask.__lt__`, which is defined as
`self.priority > other.priority` (lines 23-25), i.e. a max-heap on priority.
The heap is modelled as the CPython list it is, with `heappush`/`_siftdown`
ported index for index; file and datetime handling is dropped. -/

/-- `ScheduledTask` (the timing fields `actual_time`/`start_time`/`end_time`
are `None` on freshly created tasks and are never read on the embedded
path). -/
structure ScheduledTask where
  id : String
  node_id : String
  task_name : String
  estimated_time : Nat
  dependencies : List String
  priority : Int
  status : String
deriving DecidableEq, Repr

/-- `ScheduledTask.__lt__`: higher priority compares as smaller, so the
min-heap pops high priority first. -/
def taskLt (a b : ScheduledTask) : Bool := a.priority > b.priority

/-- CPython `heapq._siftdown(heap, startpos, pos)` with `newitem` the element
initially at `pos`: bubble `newitem` up while it compares `<` its parent.
The loop shrinks `pos` to `(pos - 1) / 2 < pos` on every iteration, so the
`pos + 1` fuel supplied by `heappush` is never exhausted; fuel keeps the
recursion structural. -/
def siftdown (newitem : ScheduledTask) :
    Nat → List ScheduledTask → Nat → Nat → List ScheduledTask
  | 0, heap, _, pos => heap.set pos newitem
  | fuel + 1, heap, startpos, pos =>
      if startpos < pos then
        let parentpos := (pos - 1) / 2
        match heap.get? parentpos with
        | some parent =>
            if taskLt newitem parent then
              siftdown newitem fuel (heap.set pos parent) startpos parentpos
            else heap.set pos newitem
        | Option.none => heap.set pos newitem
      else heap.set pos newitem

/-- `heapq.heappush(heap, item)`: append, then sift down from the end. -/
def heappush (heap : List ScheduledTask) (item : ScheduledTask) :
    List ScheduledTask :=
  siftdown item (heap.length + 1) (heap ++ [item]) 0 heap.length

/-- `build_dependency_graph`: a dict `task.id -> dependencies` over
`task_queue + running_tasks.values()` in that iteration order. -/
def buildDependencyGraph (queue running : List ScheduledTask) :
    List (String × List String) :=
  (queue ++ running).foldl (fun g t => dset g t.id t.dependencies) []

/-- The body of the `while queue` loop of `topological_sort`: pop the head,
then walk the graph entries; for every entry whose dependencies contain the
popped node, decrement its in-degree and enqueue it when the count reaches
zero. -/
def topoStep (graph : List (String × List String)) (node : String)
    (queue : List String) (indeg : List (String × Int)) :
    List String × List (String × Int) :=
  graph.foldl
    (fun acc entry =>
      if node ∈ entry.2 then
        let v := ((dget acc.2 entry.1).getD 0) - 1
        let m2 := dset acc.2 entry.1 v
        if v = 0 then (acc.1 ++ [entry.1], m2) else (acc.1, m2)
      else acc)
    (queue, indeg)

/-- The `while queue` loop with fuel.  Every element ever enqueued is either
in the initial zero-degree queue (at most one per key) or is enqueued when
its monotonically decreasing count first reaches zero (again at most one per
key), so `2 * |graph| + 1` iterations are never exhausted. -/
def topoLoop (graph : List (String × List String)) :
    Nat → List String → List (String × Int) → List String
  | 0, _, _ => []
  | _ + 1, [], _ => []
  | fuel + 1, node :: rest, indeg =>
      let step := topoStep graph node rest indeg
      node :: topoLoop graph fuel step.1 step.2

/-- `topological_sort(graph)` (lines 155-179): seed in-degrees (counting, for
each node, how many tasks list it as a dependency, guarded by
`if dep in in_degree`), start from the zero-degree nodes in dict order, loop. -/
def topologicalSort (graph : List (String × List String)) : List String :=
  let indeg0 : List (String × Int) := graph.foldl (fun m e => dset m e.1 0) []
  let indeg := graph.foldl
    (fun m e => e.2.foldl
      (fun m2 d => if dmem m2 d then dset m2 d (((dget m2 d).getD 0) + 1) else m2) m)
    indeg0
  let queue0 := (indeg.filter (fun kv => kv.2 = 0)).map Prod.fst
  topoLoop graph (2 * graph.length + 1) queue0 indeg

/-- `find_task_by_id`: first match in `task_queue`, else `running_tasks`. -/
def findTaskById (queue running : List ScheduledTask) (taskId : String) :
    Option ScheduledTask :=
  match queue.find? (fun t => t.id = taskId) with
  | some t => some t
  | Option.none => (running.find? (fun t => t.id = taskId)).map id

/-- Stable insertion into a priority-descending list: the inserted element
precedes every strictly lower priority and also every equal priority seen
later, because it is the earlier element of the pre-sort list. -/
def insertDesc (t : ScheduledTask) : List ScheduledTask → List ScheduledTask
  | [] => [t]
  | x :: xs => if t.priority ≥ x.priority then t :: x :: xs else x :: insertDesc t xs

/-- `optimized.sort(key=lambda t: t.priority, reverse=True)`: Python's sort is
stable, and a stable sort's output is uniquely determined by the key order
and the original order, so this stable insertion sort computes it. -/
def stableSortDesc : List ScheduledTask → List ScheduledTask
  | [] => []
  | x :: xs => insertDesc x (stableSortDesc xs)

/-- `optimize_schedule` (lines 125-143): topologically order the dependency
graph, keep the tasks found with status `'scheduled'`, then sort by priority
descending (stable). -/
def optimizeSchedule (queue running : List ScheduledTask) :
    List ScheduledTask :=
  let graph := buildDependencyGraph queue running
  let order := topologicalSort graph
  let optimized := order.filterMap (fun tid =>
    match findTaskById queue running tid with
    | some t => if t.status = "scheduled" then some t else Option.none
    | Option.none => Option.none)
  stableSortDesc optimized

/-- The schedule produced by `execute` for a batch of freshly created tasks
(lines 49-56): push each onto the initially loaded queue, then optimize.
`create_scheduled_task` gives every new task status `'scheduled'`. -/
def schedulerRun (initialQueue running newTasks : List ScheduledTask) :
    List ScheduledTask :=
  optimizeSchedule (newTasks.foldl heappush initialQueue) running

/-! ### Sandbox runner (`backend/utils/executor.py`)

`parse_isolated_result` (lines 273-305) splits the child's decoded stdout on
the marker `===EXECUTION_RESULT===` emitted by `create_isolated_script`
(lines 268-269) and `json.loads`-parses `parts[1].strip()`.  `str.split` is
ported to character lists (`splitAux`); `json.loads` is an external library
call and is a parameter `loads` of the embedding (any exception from the
`try` body — bad JSON, non-dict payload, bad UTF-8 — lands in the
`except` arm, modelled by `loads` returning `none` or a non-dict). -/

/-- CPython `s.split(sep)` for non-empty `sep`, on character lists: cut at
each leftmost occurrence of `sep`.  Both recursive calls consume at least one
character, so the `l.length + 1` fuel supplied by `splitOnStr` is never
exhausted; fuel keeps the recursion structural. -/
def splitAux (sep : List Char) : Nat → List Char → List (List Char)
  | 0, l => [l]
  | _ + 1, [] => [[]]
  | fuel + 1, c :: rest =>
      if sep ≠ [] ∧ sep.isPrefixOf (c :: rest) then
        [] :: splitAux sep fuel (List.drop sep.length (c :: rest))
      else
        match splitAux sep fuel rest with
        | h :: t => (c :: h) :: t
        | [] => [[c]]

/-- `output.split(marker)` on strings. -/
def splitOnStr (sep s : String) : List String :=
  (splitAux sep.data (s.data.length + 1) s.data).map (fun l => ⟨l⟩)

/-- Python's default `str.strip` whitespace (the ASCII part; the embedded
transcripts contain no exotic unicode whitespace). -/
def isSpaceChar (c : Char) : Bool :=
  c = ' ' || c = '\t' || c = '\n' || c = '\r' || c = '\x0b' || c = '\x0c'

/-- `s.strip()`: drop whitespace from both ends. -/
def stripStr (s : String) : String :=
  ⟨((s.data.dropWhile isSpaceChar).reverse.dropWhile isSpaceChar).reverse⟩

/-- The result marker printed by the generated isolated script. -/
def marker : String := "===EXECUTION_RESULT==="

/-- `parse_isolated_result(stdout, stderr)`:
if the marker occurs, parse `parts[1].strip()` and attach the raw prefix as
`"stdout"` and the raw stderr; any parse failure (or a non-dict payload,
whose key assignment would raise `TypeError`) yields the
`"Failed to parse result"` error dict; without the marker, the
`"No execution result found"` error dict with the raw streams attached. -/
def parseIsolatedResult (loads : String → Option Value) (stdout stderr : String) :
    PyDict :=
  match splitOnStr marker stdout with
  | p0 :: p1 :: _ =>
      match loads (stripStr p1) with
      | some (Value.dict d) =>
          dset (dset d "stdout" (Value.str p0)) "stderr" (Value.str stderr)
      | _ =>
          [("status", Value.str "error"),
           ("error", Value.str "Failed to parse result"),
           ("stdout", Value.str stdout), ("stderr", Value.str stderr)]
  | _ =>
      [("status", Value.str "error"),
       ("error", Value.str "No execution result found"),
       ("stdout", Value.str stdout), ("stderr", Value.str stderr)]

/-- Signals the runner can send to the sandbox child. -/
inductive Sig where
  | term
  | kill
deriving DecidableEq, Repr

/-- The externally observable behaviour of one sandbox child process:
how long `process.communicate()` takes to resolve (wall-clock seconds),
the streams it produces when it does, and how long after a SIGTERM it
exits.  Real time is abstracted to `Nat` ticks. -/
structure ProcModel where
  commTime : Nat
  stdout : String
  stderr : String
  exitAfterTerm : Nat
deriving DecidableEq, Repr

/-- The observable outcome of a runner call: the result dict, the signals it
sent to the child in order, and whether the child's termination was awaited
(every path `await`s `process.wait()` or gets the streams from
`communicate()`, which also reaps the child). -/
structure SandboxTrace where
  result : PyDict
  signals : List Sig
  procConfirmedDead : Bool

/-- `execute_isolated` lines 184-210: `await wait_for(communicate(), timeout)`.
If the child finishes within the timeout, parse the streams; on
`asyncio.TimeoutError` the runner calls `process.kill()` — immediately, with
no SIGTERM and no grace period — then `await process.wait()` and returns the
`status="timeout"` dict. -/
def executeIsolatedModel (loads : String → Option Value) (timeout : Nat)
    (p : ProcModel) : SandboxTrace :=
  if p.commTime ≤ timeout then
    { result := parseIsolatedResult loads p.stdout p.stderr
      signals := []
      procConfirmedDead := true }
  else
    { result :=
        [("status", Value.str "timeout"),
         ("error", Value.str ("Execution timeout after " ++ toString timeout ++ " seconds")),
         ("output", Value.dict [])]
      signals := [Sig.kill]
      procConfirmedDead := true }

/-- `stop_execution` lines 402-425 (cancellation by id, for a registered
running process): send SIGTERM (`process.terminate()`), wait up to the 5.0
second grace period, escalate to `process.kill()` if the child has not
exited, and in both cases `await process.wait()` before returning `True`. -/
def stopExecutionProc (p : ProcModel) : SandboxTrace × Bool :=
  if p.exitAfterTerm ≤ 5 then
    ({ result := [], signals := [Sig.term], procConfirmedDead := true }, true)
  else
    ({ result := [], signals := [Sig.term, Sig.kill], procConfirmedDead := true }, true)

/-! ### Specification-side predicates -/

/-- The nodes of the walk state that are visited but not yet ordered — exactly
the nodes whose `visit` frame is still on the recursion stack. -/
def Gray (s : DfsState) (x : String) : Prop := x ∈ s.1 ∧ x ∉ s.2

/-- How many node ids are not yet visited (the fuel measure of `visit`). -/
def unvisitedCount (w : Workflow) (visited : List String) : Nat :=
  ((nodeIds w).filter (fun x => decide (x ∉ visited))).length

/-- Structural invariant of the DFS state: the order is drawn from the visited
set, everything visited is a node id, and both lists are duplicate-free. -/
def InvB (w : Workflow) (s : DfsState) : Prop :=
  (∀ x ∈ s.2, x ∈ s.1) ∧ (∀ x ∈ s.1, x ∈ nodeIds w) ∧ s.1.Nodup ∧ s.2.Nodup

/-- How one `visit` call extends the DFS state: visited grows, the order grows
by appending, newly ordered nodes were unvisited before, the gray set only
shrinks, and newly visited nodes are node ids. -/
def Ext (w : Workflow) (s s2 : DfsState) : Prop :=
  (∀ x ∈ s.1, x ∈ s2.1) ∧ (∃ t, s2.2 = s.2 ++ t) ∧
  (∀ x ∈ s2.2, x ∈ s.2 ∨ x ∉ s.1) ∧
  (∀ x, x ∈ s2.1 → x ∉ s2.2 → x ∈ s.1 ∧ x ∉ s.2) ∧
  (∀ x ∈ s2.1, x ∈ s.1 ∨ x ∈ nodeIds w)

/-- Dependency-closedness of an order, read back to front: each node's
dependencies occur among the strictly earlier (further-toward-the-tail in the
reversed list) entries. -/
def TopoRev (w : Workflow) : List String → Prop
  | [] => True
  | m :: rest => (∀ d ∈ depsOf w m, d ∈ rest) ∧ TopoRev w rest

/-- Acyclicity of a plan's dependency relation, as a topological numbering. -/
def PlanAcyclic (plan : List PlanItem) : Prop :=
  ∃ rank : String → Nat,
    ∀ it ∈ plan, ∀ d ∈ it.dependencies, rank d < rank it.nodeId

/-- `p.foldl addIds c`: the completed set after emitting the groups `p`. -/
def addAll (c : List String) (p : List (List PlanItem)) : List String :=
  p.foldl addIds c

/-- The invariant tying `groupLoop`'s output to its completed set: every item
of the head group is a plan item, not yet completed, with all dependencies
completed; the tail continues from the enlarged completed set. -/
def GroupsOK (plan : List PlanItem) : List String → List (List PlanItem) → Prop
  | _, [] => True
  | c, g :: rest =>
      (∀ it ∈ g, it ∈ plan ∧ it.nodeId ∉ c ∧ ∀ d ∈ it.dependencies, d ∈ c) ∧
      GroupsOK plan (addIds c g) rest

/-- `sep` occurs as a contiguous sublist of `l`. -/
def Occurs (sep l : List Char) : Prop := ∃ a b, l = a ++ sep ++ b

/-- Decision procedure for `Occurs` (scan every suffix). -/
def occursB (sep : List Char) : List Char → Bool
  | [] => sep.isPrefixOf []
  | c :: t => sep.isPrefixOf (c :: t) || occursB sep t

/-! ### Concrete instances used by counterexamples and witnesses -/

/-- Two nodes depending on each other: the canonical cyclic graph. -/
def wCyc : Workflow :=
  ⟨[⟨"a", "A"⟩, ⟨"b", "B"⟩],
   [⟨"a", "b", Option.none, Option.none⟩, ⟨"b", "a", Option.none, Option.none⟩], []⟩

/-- A two-node chain `a → b`. -/
def wLin : Workflow :=
  ⟨[⟨"a", "A"⟩, ⟨"b", "B"⟩], [⟨"a", "b", Option.none, Option.none⟩], []⟩

/-- The chain `a → b` with a ported edge `a.out → b.in`. -/
def wLinPorted : Workflow :=
  ⟨[⟨"a", "A"⟩, ⟨"b", "B"⟩], [⟨"a", "b", some "out", some "in"⟩], []⟩

/-- A three-node chain `a → b → c` with default settings (no
`continueOnError`). -/
def wC3 : Workflow :=
  ⟨[⟨"a", "A"⟩, ⟨"b", "B"⟩, ⟨"c", "C"⟩],
   [⟨"a", "b", Option.none, Option.none⟩, ⟨"b", "c", Option.none, Option.none⟩], []⟩

/-- An executor oracle whose node `b` raises `boom` and whose other nodes
succeed with a one-key output. -/
def oracleC3 : ExecOracle := fun node _ =>
  if node.id = "b" then Except.error "boom"
  else Except.ok [("out", Value.str node.id)]

/-- The cyclic two-item plan `a ↔ b`. -/
def planCyc : List PlanItem :=
  [⟨"a", "worker", false, ["b"], 30⟩, ⟨"b", "worker", false, ["a"], 30⟩]

/-- The diamond-free plan `d, e → f` (D and E independent, both feeding F). -/
def planDEF : List PlanItem :=
  [⟨"d", "worker", false, [], 30⟩, ⟨"e", "worker", false, [], 30⟩,
   ⟨"f", "worker", false, ["d", "e"], 30⟩]

/-- Equal-priority tasks inserted first (`ta`, then `tb`), followed by a
higher-priority task `tx`. -/
def taskA : ScheduledTask := ⟨"ta", "n", "A", 30, [], 50, "scheduled"⟩

/-- Second equal-priority task, inserted after `taskA`. -/
def taskB : ScheduledTask := ⟨"tb", "n", "B", 30, [], 50, "scheduled"⟩

/-- The high-priority task inserted last; its `heappush` sift swaps it with
`taskA` at the heap root, moving `taskA` behind `taskB` in the heap array. -/
def taskX : ScheduledTask := ⟨"tx", "n", "X", 30, [], 90, "scheduled"⟩

/-- A toy stand-in for `json.loads`, total on exactly one payload: the
behaviour of the real parser on the strings exercised below ("RESULTPAYLOAD"
parses to a dict, anything else fails). -/
def demoLoads : String → Option Value := fun s =>
  if s = "RESULTPAYLOAD" then some (Value.dict [("status", Value.str "success")])
  else Option.none

/-- A child stdout whose user code printed the marker itself before the real
result: `pre`, a first marker, stray output, the real marker, the payload. -/
def stdoutCorrupted : String :=
  "pre" ++ marker ++ "bad" ++ marker ++ "\nRESULTPAYLOAD\n"

/-- A clean child stdout: marker followed by the payload. -/
def stdoutClean : String := marker ++ "\nRESULTPAYLOAD\n"

/-- The run state of `wLin` after node `a` completed, i.e. at the first await
point after `a`'s Success notification: node `a` Success, node `b` Waiting,
instance Running.  (`oracleC3` restricted to `wLin` succeeds on `a` and
`b`.) -/
def c2Mid : RunState :=
  (runNode wLin (fun node _ => Except.ok [("out", Value.str node.id)]) "a"
    ⟨{ createExecution wLin "e1" "w1" "manual" Option.none [] 0 with
        status := ExecutionStatus.running }, [], 1⟩).1

/-- Resuming the run loop after `stop_execution` flipped the status: the
engine stores no task handle and the loop never re-reads the status, so the
remaining order `["b"]` simply continues from the mutated instance. -/
def c2Final : RunState :=
  finishRun (runNodes wLin (fun node _ => Except.ok [("out", Value.str node.id)]) ["b"]
    ⟨(match dget (stopExecution [("e1", c2Mid.execution)] "e1") "e1" with
      | some ex => ex
      | Option.none => c2Mid.execution), c2Mid.nodeOutputs, c2Mid.clock⟩)

/-- State of the `wC3` run after the clean prefix `["a"]`. -/
def c3s1 : RunState :=
  (runNodes wC3 oracleC3 ["a"]
    ⟨{ createExecution wC3 "e1" "w1" "manual" Option.none [] 0 with
        status := ExecutionStatus.running }, [], 1⟩).1

/-- What it means for one incoming edge to be able to contribute the key `k`
to a node's resolved input: the edge targets the node and either (ported
case) both handles are truthy, the key is the target handle, and the upstream
output actually contains the source handle, or (merge case) the handles are
not both truthy and the key is one of the upstream output's own keys. -/
def EdgeContributes (nodeId : String) (outputs : List (String × PyDict))
    (e : Edge) (k : String) : Prop :=
  e.target = nodeId ∧
    ((∃ sh th, e.sourceHandle = some sh ∧ e.targetHandle = some th ∧
        sh ≠ "" ∧ th ≠ "" ∧ th = k ∧
        dmem ((dget outputs e.source).getD []) sh = true) ∨
     ((truthyStr e.sourceHandle && truthyStr e.targetHandle) = false ∧
        dmem ((dget outputs e.source).getD []) k = true))

/-! ## Lemmas about the dict model -/

theorem dget_dset (m : List (String × α)) (k k2 : String) (v : α) :
    dget (dset m k v) k2 = if k = k2 then some v else dget m k2 := by
  induction m with
  | nil => by_cases h : k = k2 <;> simp [dset, dget, h]
  | cons kv rest ih =>
      obtain ⟨k3, v3⟩ := kv
      by_cases h3 : k3 = k
      · subst h3
        by_cases h2 : k3 = k2 <;> simp [dset, dget, h2]
      · by_cases h2 : k3 = k2
        · subst h2
          have : ¬k = k3 := fun h => h3 h.symm
          simp [dset, dget, h3, this]
        · simp [dset, dget, h3, h2, ih]

theorem dget_dmodify (m : List (String × α)) (k k2 : String) (f : α → α) :
    dget (dmodify m k f) k2 =
      if k = k2 then (dget m k).map f else dget m k2 := by
  induction m with
  | nil => by_cases h : k = k2 <;> simp [dmodify, dget, h]
  | cons kv rest ih =>
      obtain ⟨k3, v3⟩ := kv
      by_cases h3 : k3 = k
      · subst h3
        by_cases h2 : k3 = k2 <;> simp [dmodify, dget, h2]
      · by_cases h2 : k3 = k2
        · subst h2
          have : ¬k = k3 := fun h => h3 h.symm
          simp [dmodify, dget, h3, this]
        · simp [dmodify, dget, h3, h2, ih]

theorem dmem_iff_dget (m : List (String × α)) (k : String) :
    dmem m k = true ↔ ∃ v, dget m k = some v := by
  induction m with
  | nil => simp [dmem, dget]
  | cons kv rest ih =>
      obtain ⟨k3, v3⟩ := kv
      by_cases h3 : k3 = k <;> simp [dmem, dget, h3, ih]

theorem dget_dupdate (m other : List (String × α)) (k : String) (v : α) :
    dget (dupdate m other) k = some v → dmem other k = true ∨ dget m k = some v := by
  rw [dupdate]
  induction other generalizing m with
  | nil => intro h; exact Or.inr h
  | cons kv rest ih =>
      obtain ⟨k3, v3⟩ := kv
      intro h
      rcases ih (dset m k3 v3) h with hmem | hget
      · exact Or.inl (by simp [dmem, hmem])
      · rw [dget_dset] at hget
        by_cases h3 : k3 = k
        · exact Or.inl (by simp [dmem, h3])
        · rw [if_neg h3] at hget
          exact Or.inr hget

/-! ## C10 — the frame property of `stop_execution` -/

/-- C10: `stop_execution(execution_id)` mutates state only when the id maps to
a stored execution whose status is Running, and then changes exactly that
execution's status field to Cancelled (`{ ex with status := cancelled }` — all
other fields and all other stored executions are unchanged); for an unknown id
or a non-Running execution the store is returned untouched. -/
theorem stopExecution_frame (executions : List (String × WorkflowExecution))
    (eid : String) :
    (dget executions eid = Option.none → stopExecution executions eid = executions) ∧
    (∀ ex, dget executions eid = some ex → ex.status ≠ ExecutionStatus.running →
      stopExecution executions eid = executions) ∧
    (∀ ex, dget executions eid = some ex → ex.status = ExecutionStatus.running →
      stopExecution executions eid =
        dset executions eid { ex with status := ExecutionStatus.cancelled } ∧
      dget (stopExecution executions eid) eid =
        some { ex with status := ExecutionStatus.cancelled } ∧
      (∀ k, k ≠ eid → dget (stopExecution executions eid) k = dget executions k)) := by
  refine ⟨fun h => ?_, fun ex h hs => ?_, fun ex h hs => ?_⟩
  · simp [stopExecution, h]
  · simp [stopExecution, h, hs]
  · have heq : stopExecution executions eid =
        dset executions eid { ex with status := ExecutionStatus.cancelled } := by
      simp [stopExecution, h, hs]
    refine ⟨heq, ?_, fun k hk => ?_⟩
    · rw [heq, dget_dset, if_pos rfl]
    · rw [heq, dget_dset, if_neg (fun he => hk he.symm)]

/-- A running stored execution on which the three clauses of
`stopExecution_frame` are exercised concretely. -/
def exRunning : WorkflowExecution :=
  { createExecution wLin "e1" "w1" "manual" Option.none [] 0 with
      status := ExecutionStatus.running }

/-- Witness for C10 at a concrete store: the lookup succeeds, the execution is
Running, and `stop_execution` rewrites exactly the status field. -/
theorem stopExecution_frame_witness :
    dget [("e1", exRunning)] "e1" = some exRunning ∧
    exRunning.status = ExecutionStatus.running ∧
    stopExecution [("e1", exRunning)] "e1" =
      dset [("e1", exRunning)] "e1" { exRunning with status := ExecutionStatus.cancelled } ∧
    dget (stopExecution [("e1", exRunning)] "e1") "e1" =
      some { exRunning with status := ExecutionStatus.cancelled } ∧
    (∀ k, k ≠ "e1" →
      dget (stopExecution [("e1", exRunning)] "e1") k = dget [("e1", exRunning)] k) :=
  ⟨rfl, rfl,
    ((stopExecution_frame [("e1", exRunning)] "e1").2.2 exRunning rfl rfl).1,
    ((stopExecution_frame [("e1", exRunning)] "e1").2.2 exRunning rfl rfl).2.1,
    ((stopExecution_frame [("e1", exRunning)] "e1").2.2 exRunning rfl rfl).2.2⟩

/-! ## C9 — totality and provenance of `_collect_input_data` -/

theorem collectEdge_origin (nodeId : String) (outputs : List (String × PyDict))
    (acc : PyDict) (e : Edge) (k : String) (v : Value) :
    dget (collectEdge nodeId outputs acc e) k = some v →
    EdgeContributes nodeId outputs e k ∨ dget acc k = some v := by
  intro h
  rw [collectEdge] at h
  by_cases ht : e.target = nodeId
  · rw [if_pos ht] at h
    by_cases htr : (truthyStr e.sourceHandle && truthyStr e.targetHandle) = true
    · rw [if_pos htr] at h
      have hsh : ∃ sh, e.sourceHandle = some sh ∧ sh ≠ "" := by
        rcases hs : e.sourceHandle with _ | sh
        · rw [Bool.and_eq_true, hs] at htr; simp [truthyStr] at htr
        · refine ⟨sh, rfl, ?_⟩
          rw [Bool.and_eq_true, hs] at htr
          simpa [truthyStr] using htr.1
      have hth : ∃ th, e.targetHandle = some th ∧ th ≠ "" := by
        rcases hs : e.targetHandle with _ | th
        · rw [Bool.and_eq_true, hs] at htr; simp [truthyStr] at htr
        · refine ⟨th, rfl, ?_⟩
          rw [Bool.and_eq_true, hs] at htr
          simpa [truthyStr] using htr.2
      obtain ⟨sh, hse, hshne⟩ := hsh
      obtain ⟨th, hte, hthne⟩ := hth
      rw [hse, hte] at h
      simp only [] at h
      rcases hget : dget ((dget outputs e.source).getD []) sh with _ | v0
      · rw [hget] at h
        exact Or.inr h
      · rw [hget] at h
        rw [dget_dset] at h
        by_cases hk : th = k
        · exact Or.inl ⟨ht, Or.inl ⟨sh, th, hse, hte, hshne, hthne, hk,
            (dmem_iff_dget _ _).mpr ⟨v0, hget⟩⟩⟩
        · rw [if_neg hk] at h
          exact Or.inr h
    · rw [if_neg htr] at h
      rcases dget_dupdate _ _ _ _ h with hmem | hacc
      · exact Or.inl ⟨ht, Or.inr ⟨Bool.eq_false_iff.mpr htr, hmem⟩⟩
      · exact Or.inr hacc
  · rw [if_neg ht] at h
    exact Or.inr h

theorem collectFold_origin (nodeId : String) (outputs : List (String × PyDict))
    (edges : List Edge) (acc : PyDict) (k : String) (v : Value) :
    dget (edges.foldl (collectEdge nodeId outputs) acc) k = some v →
    (∃ e ∈ edges, EdgeContributes nodeId outputs e k) ∨ dget acc k = some v := by
  induction edges generalizing acc with
  | nil => intro h; exact Or.inr h
  | cons e es ih =>
      intro h
      rcases ih (collectEdge nodeId outputs acc e) h with ⟨e2, he2, hc⟩ | hstep
      · exact Or.inl ⟨e2, List.mem_cons_of_mem _ he2, hc⟩
      · rcases collectEdge_origin nodeId outputs acc e k v hstep with hc | hacc
        · exact Or.inl ⟨e, List.mem_cons_self _ _, hc⟩
        · exact Or.inr hacc

/-- C9: input resolution is total (it is a plain function of the stored
outputs) and (a) the resolved input always binds the reserved key
`"_context"` to the instance's shared context, while (b) every other key of
the resolved input was contributed by some incoming edge — in the ported case
only when the upstream node's stored output actually contains the source
port key, and in the whole-output case only when the key belongs to the
upstream output; a missing port or missing upstream output contributes
nothing. -/
theorem collectInputData_spec (node : Node) (w : Workflow)
    (outputs : List (String × PyDict)) (ctx : PyDict) :
    dget (collectInputData node w outputs ctx) "_context" =
      some (Value.dict ctx) ∧
    ∀ k v, dget (collectInputData node w outputs ctx) k = some v →
      k ≠ "_context" → ∃ e ∈ w.edges, EdgeContributes node.id outputs e k := by
  constructor
  · rw [collectInputData, dget_dset, if_pos rfl]
  · intro k v h hk
    rw [collectInputData, dget_dset, if_neg (fun he => hk he.symm)] at h
    rcases collectFold_origin node.id outputs w.edges [] k v h with hor | hnil
    · exact hor
    · simp [dget] at hnil

/-- Witness for C9 on a concrete ported edge `a.out → b.in` with the upstream
output present: the context key is bound and the key `"in"` traces back to
that edge. -/
theorem collectInputData_spec_witness :
    dget (collectInputData ⟨"b", "B"⟩ wLinPorted [("a", [("out", Value.str "v")])]
        [("k", Value.int 7)]) "_context" =
      some (Value.dict [("k", Value.int 7)]) ∧
    ∃ e ∈ wLinPorted.edges,
      EdgeContributes "b" [("a", [("out", Value.str "v")])] e "in" :=
  ⟨(collectInputData_spec ⟨"b", "B"⟩ wLinPorted [("a", [("out", Value.str "v")])]
      [("k", Value.int 7)]).1,
   (collectInputData_spec ⟨"b", "B"⟩ wLinPorted [("a", [("out", Value.str "v")])]
      [("k", Value.int 7)]).2 "in" (Value.str "v") rfl (by decide)⟩

/-! ## C8 — the scheduler's pending-task ordering -/

theorem mem_insertDesc (t a : ScheduledTask) (l : List ScheduledTask) :
    a ∈ insertDesc t l → a = t ∨ a ∈ l := by
  induction l with
  | nil => intro h; simpa [insertDesc] using h
  | cons x xs ih =>
      intro h
      rw [insertDesc] at h
      by_cases hc : t.priority ≥ x.priority
      · rw [if_pos hc] at h
        rcases List.mem_cons.mp h with h2 | h2
        · exact Or.inl h2
        · exact Or.inr h2
      · rw [if_neg hc] at h
        rcases List.mem_cons.mp h with h2 | h2
        · exact Or.inr (by simp [h2])
        · rcases ih h2 with h3 | h3
          · exact Or.inl h3
          · exact Or.inr (List.mem_cons_of_mem _ h3)

theorem mem_stableSortDesc (a : ScheduledTask) (l : List ScheduledTask) :
    a ∈ stableSortDesc l → a ∈ l := by
  induction l with
  | nil => intro h; simpa [stableSortDesc] using h
  | cons x xs ih =>
      intro h
      rw [stableSortDesc] at h
      rcases mem_insertDesc x a (stableSortDesc xs) h with h2 | h2
      · simp [h2]
      · exact List.mem_cons_of_mem _ (ih h2)

theorem pairwise_insertDesc (t : ScheduledTask) (l : List ScheduledTask)
    (hl : l.Pairwise (fun a b => b.priority ≤ a.priority)) :
    (insertDesc t l).Pairwise (fun a b => b.priority ≤ a.priority) := by
  induction l with
  | nil => simp [insertDesc]
  | cons x xs ih =>
      rw [insertDesc]
      rcases List.pairwise_cons.mp hl with ⟨hx, hxs⟩
      by_cases hc : t.priority ≥ x.priority
      · rw [if_pos hc]
        refine List.pairwise_cons.mpr ⟨?_, hl⟩
        intro b hb
        rcases List.mem_cons.mp hb with hb2 | hb2
        · exact hb2 ▸ hc
        · exact le_trans (hx b hb2) hc
      · rw [if_neg hc]
        refine List.pairwise_cons.mpr ⟨?_, ih hxs⟩
        intro b hb
        rcases mem_insertDesc t b xs hb with hb2 | hb2
        · exact hb2 ▸ le_of_not_le hc
        · exact hx b hb2

theorem pairwise_stableSortDesc (l : List ScheduledTask) :
    (stableSortDesc l).Pairwise (fun a b => b.priority ≤ a.priority) := by
  induction l with
  | nil => simp [stableSortDesc]
  | cons x xs ih => exact pairwise_insertDesc x (stableSortDesc xs) ih

theorem findTaskById_mem (queue running : List ScheduledTask) (tid : String)
    (t : ScheduledTask) (h : findTaskById queue running tid = some t) :
    t ∈ queue ∨ t ∈ running := by
  rw [findTaskById] at h
  rcases hq : queue.find? (fun t2 => t2.id = tid) with _ | t2
  · rw [hq] at h
    simp only [Option.map_id] at h
    rcases hr : running.find? (fun t2 => t2.id = tid) with _ | t3
    · rw [hr] at h; cases h
    · rw [hr] at h
      cases h
      exact Or.inr (List.mem_of_find?_eq_some hr)
  · rw [hq] at h
    cases h
    exact Or.inl (List.mem_of_find?_eq_some hq)

/-- The amended C8: for every initial queue, running set and insertion
sequence, the schedule produced by the scheduler node lists tasks in
non-increasing priority order (any higher-priority task before any
lower-priority one), and contains only pending/running tasks; equal-priority
ties, however, follow the heap-array/topological traversal order rather than
insertion order (`schedulerRun_tie_counterexample`). -/
theorem schedulerRun_priority_order (initialQueue running newTasks : List ScheduledTask) :
    (schedulerRun initialQueue running newTasks).Pairwise
      (fun a b => b.priority ≤ a.priority) ∧
    ∀ t ∈ schedulerRun initialQueue running newTasks,
      t ∈ newTasks.foldl heappush initialQueue ∨ t ∈ running := by
  constructor
  · exact pairwise_stableSortDesc _
  · intro t ht
    rw [schedulerRun, optimizeSchedule] at ht
    have ht2 := mem_stableSortDesc t _ ht
    rcases List.mem_filterMap.mp ht2 with ⟨tid, _, hf⟩
    rcases hfind : findTaskById (newTasks.foldl heappush initialQueue) running tid
      with _ | t2
    · rw [hfind] at hf; cases hf
    · rw [hfind] at hf
      simp only [] at hf
      by_cases hs : t2.status = "scheduled"
      · rw [if_pos hs] at hf
        cases hf
        exact findTaskById_mem _ _ _ _ hfind
      · rw [if_neg hs] at hf; cases hf

/-- Counterexample to C8 as stated: `taskA` and `taskB` have equal priority
and are inserted in this order (`[taskA, taskB, taskX]`), yet the produced
schedule is `[taskX, taskB, taskA]` — `taskB` is listed before `taskA`.
Pushing the later, higher-priority `taskX` sifts it past the heap root,
moving `taskA` behind `taskB` in the heap array, and both the topological
scan and the final stable sort preserve that array order for ties. -/
theorem schedulerRun_tie_counterexample :
    taskA.priority = taskB.priority ∧
    schedulerRun [] [] [taskA, taskB, taskX] = [taskX, taskB, taskA] :=
  ⟨rfl, by decide⟩

/-! ## C6 — sandbox timeout handling -/

/-- The amended C6: for every sandbox run whose child exceeds the wall-clock
timeout, `execute_isolated` immediately force-kills the process — the only
signal sent is SIGKILL, with no graceful termination signal and no grace
period — the call returns a `status="timeout"` result, and the OS process is
awaited (confirmed terminated) before the call returns.  The
graceful-signal-then-escalate protocol exists only in the runner's
`stop_execution` cancellation path, with its 5-second grace period. -/
theorem executeIsolated_timeout_spec :
    (∀ (loads : String → Option Value) (timeout : Nat) (p : ProcModel),
      timeout < p.commTime →
      dget (executeIsolatedModel loads timeout p).result "status" =
        some (Value.str "timeout") ∧
      (executeIsolatedModel loads timeout p).signals = [Sig.kill] ∧
      (executeIsolatedModel loads timeout p).procConfirmedDead = true) ∧
    (∀ p : ProcModel,
      (stopExecutionProc p).1.signals =
        (if p.exitAfterTerm ≤ 5 then [Sig.term] else [Sig.term, Sig.kill]) ∧
      (stopExecutionProc p).1.procConfirmedDead = true ∧
      (stopExecutionProc p).2 = true) := by
  constructor
  · intro loads timeout p h
    have hn : ¬p.commTime ≤ timeout := not_le.mpr h
    refine ⟨?_, ?_, ?_⟩ <;> simp [executeIsolatedModel, hn, dget]
  · intro p
    by_cases h : p.exitAfterTerm ≤ 5 <;>
      refine ⟨?_, ?_, ?_⟩ <;> simp [stopExecutionProc, h]

/-- Witness for C6 at a concrete over-budget process (`commTime = 301`
against `timeout = 300`) and a concrete cancellation (`exitAfterTerm = 0`). -/
theorem executeIsolated_timeout_spec_witness :
    (300 < (⟨301, "", "", 0⟩ : ProcModel).commTime ∧
      dget (executeIsolatedModel demoLoads 300 ⟨301, "", "", 0⟩).result "status" =
        some (Value.str "timeout") ∧
      (executeIsolatedModel demoLoads 300 ⟨301, "", "", 0⟩).signals = [Sig.kill] ∧
      (executeIsolatedModel demoLoads 300 ⟨301, "", "", 0⟩).procConfirmedDead = true) ∧
    ((stopExecutionProc ⟨301, "", "", 0⟩).1.signals =
        (if (⟨301, "", "", 0⟩ : ProcModel).exitAfterTerm ≤ 5 then [Sig.term]
         else [Sig.term, Sig.kill]) ∧
      (stopExecutionProc ⟨301, "", "", 0⟩).1.procConfirmedDead = true ∧
      (stopExecutionProc ⟨301, "", "", 0⟩).2 = true) :=
  ⟨⟨by decide,
    executeIsolated_timeout_spec.1 demoLoads 300 ⟨301, "", "", 0⟩ (by decide)⟩,
   executeIsolated_timeout_spec.2 ⟨301, "", "", 0⟩⟩

/-- Counterexample to C6 as stated: the child at `commTime = 301` exceeds the
300-second timeout, and the runner's only signal is the forced kill — no
graceful termination signal is ever sent and no grace period elapses, even
though the result is `status="timeout"` with the process confirmed dead. -/
theorem executeIsolated_no_graceful_counterexample :
    (executeIsolatedModel demoLoads 300 ⟨301, "", "", 0⟩).signals = [Sig.kill] ∧
    Sig.term ∉ (executeIsolatedModel demoLoads 300 ⟨301, "", "", 0⟩).signals ∧
    dget (executeIsolatedModel demoLoads 300 ⟨301, "", "", 0⟩).result "status" =
      some (Value.str "timeout") :=
  ⟨rfl, by decide, rfl⟩

/-! ## C7 — the result-marker protocol of `parse_isolated_result` -/

theorem isPrefixOf_iff (xs ys : List Char) :
    xs.isPrefixOf ys = true ↔ ∃ t, ys = xs ++ t := by
  induction xs generalizing ys with
  | nil => simp [List.isPrefixOf]
  | cons x xs ih =>
      cases ys with
      | nil => simp [List.isPrefixOf]
      | cons y ys =>
          rw [List.isPrefixOf, Bool.and_eq_true, beq_iff_eq, ih]
          constructor
          · rintro ⟨hxy, t, ht⟩
            exact ⟨t, by rw [hxy, List.cons_append, ht]⟩
          · rintro ⟨t, ht⟩
            rw [List.cons_append] at ht
            cases ht
            exact ⟨rfl, t, rfl⟩

theorem not_occurs_of_occursB_false (sep l : List Char)
    (h : occursB sep l = false) : ¬Occurs sep l := by
  induction l with
  | nil =>
      rintro ⟨a, b, hab⟩
      rcases List.append_eq_nil.mp (List.append_eq_nil.mp hab.symm).1 with ⟨ha, hs⟩
      rw [occursB, hs] at h
      simp [List.isPrefixOf] at h
  | cons c t ih =>
      rw [occursB, Bool.or_eq_false_iff] at h
      rintro ⟨a, b, hab⟩
      cases a with
      | nil =>
          have : (sep.isPrefixOf (c :: t)) = true :=
            (isPrefixOf_iff _ _).mpr ⟨b, by simpa using hab⟩
          rw [this] at h
          exact Bool.noConfusion h.1
      | cons a0 a2 =>
          rw [List.cons_append, List.cons_append] at hab
          cases hab
          exact ih h.2 ⟨a2, b, by simp⟩

theorem splitAux_noOccur (sep : List Char) (hsep : sep ≠ []) :
    ∀ (fuel : Nat) (l : List Char), l.length < fuel → ¬Occurs sep l →
      splitAux sep fuel l = [l] := by
  intro fuel
  induction fuel with
  | zero => intro l hl; omega
  | succ fuel ih =>
      intro l hl hno
      cases l with
      | nil => rfl
      | cons c rest =>
          have hpre : ¬(sep ≠ [] ∧ sep.isPrefixOf (c :: rest)) := by
            rintro ⟨-, hp⟩
            rcases (isPrefixOf_iff _ _).mp hp with ⟨t, ht⟩
            exact hno ⟨[], t, by simpa using ht⟩
          rw [splitAux, if_neg hpre]
          have hrest : splitAux sep fuel rest = [rest] := by
            refine ih rest (by simpa using Nat.lt_of_succ_lt_succ hl) ?_
            rintro ⟨a, b, hab⟩
            exact hno ⟨c :: a, b, by rw [hab]; simp⟩
          rw [hrest]

theorem splitAux_single (sep : List Char) (hsep : sep ≠ []) :
    ∀ (pre : List Char) (fuel : Nat) (rest : List Char),
      (pre ++ sep ++ rest).length < fuel →
      (∀ a b, pre ++ sep ++ rest = a ++ sep ++ b → pre.length ≤ a.length) →
      ¬Occurs sep rest →
      splitAux sep fuel (pre ++ sep ++ rest) = [pre, rest] := by
  intro pre
  induction pre with
  | nil =>
      intro fuel rest hf hfirst hno
      cases fuel with
      | zero => omega
      | succ fuel =>
          obtain ⟨s0, sep2, rfl⟩ : ∃ s0 sep2, sep = s0 :: sep2 := by
            cases sep with
            | nil => exact absurd rfl hsep
            | cons s0 sep2 => exact ⟨s0, sep2, rfl⟩
          have hshape : ([] : List Char) ++ (s0 :: sep2) ++ rest =
              s0 :: (sep2 ++ rest) := by simp
          rw [hshape, splitAux, if_pos ?hc]
          case hc =>
            refine ⟨hsep, ?_⟩
            rw [isPrefixOf_iff]
            exact ⟨rest, by simp⟩
          have hdrop : List.drop (s0 :: sep2).length (s0 :: (sep2 ++ rest)) = rest := by
            have h2 : s0 :: (sep2 ++ rest) = (s0 :: sep2) ++ rest := by simp
            rw [h2, List.drop_left]
          rw [hdrop, splitAux_noOccur (s0 :: sep2) hsep fuel rest ?hlen hno]
          case hlen =>
            rw [hshape] at hf
            simp only [List.length_cons, List.length_append] at hf ⊢
            omega
  | cons c pre2 ih =>
      intro fuel rest hf hfirst hno
      cases fuel with
      | zero => omega
      | succ fuel =>
          have hshape : (c :: pre2) ++ sep ++ rest = c :: (pre2 ++ sep ++ rest) := by
            simp
          rw [hshape, splitAux, if_neg ?hc]
          case hc =>
            rintro ⟨-, hp⟩
            rcases (isPrefixOf_iff _ _).mp hp with ⟨t, ht⟩
            have := hfirst [] t (by rw [hshape]; simpa using ht)
            simp at this
          have hrec : splitAux sep fuel (pre2 ++ sep ++ rest) = [pre2, rest] := by
            refine ih fuel rest ?_ ?_ hno
            · rw [hshape] at hf
              simpa using Nat.lt_of_succ_lt_succ (by simpa using hf)
            · intro a b hab
              have := hfirst (c :: a) b (by rw [hshape, hab]; simp)
              simpa using this
          rw [hrec]

/-- The amended C7: (a) when the child's stdout is  prior output, then the
marker, then a payload that contains no further marker occurrence and parses
as a dict, `parse_isolated_result` returns exactly that parsed dict with the
raw prior output attached under `"stdout"` and the raw stderr under
`"stderr"` — prior output that does not itself contain the marker cannot
corrupt the parse; (b) when the marker does not occur in stdout at all, the
call returns the `status="error"` / `"No execution result found"` dict with
the raw stdout and stderr attached.  (Prior output containing the marker CAN
corrupt the parse: `parse_marker_corruption_counterexample`.) -/
theorem parseIsolatedResult_spec :
    (∀ (loads : String → Option Value) (stdout stderr pre rest : String)
        (d : PyDict),
      stdout.data = pre.data ++ marker.data ++ rest.data →
      (∀ a b, stdout.data = a ++ marker.data ++ b → pre.data.length ≤ a.length) →
      ¬Occurs marker.data rest.data →
      loads (stripStr rest) = some (Value.dict d) →
      parseIsolatedResult loads stdout stderr =
        dset (dset d "stdout" (Value.str pre)) "stderr" (Value.str stderr)) ∧
    (∀ (loads : String → Option Value) (stdout stderr : String),
      ¬Occurs marker.data stdout.data →
      parseIsolatedResult loads stdout stderr =
        [("status", Value.str "error"),
         ("error", Value.str "No execution result found"),
         ("stdout", Value.str stdout), ("stderr", Value.str stderr)]) := by
  have hsep : marker.data ≠ [] := by decide
  constructor
  · intro loads stdout stderr pre rest d h1 h2 h3 h4
    have h2b : ∀ a b, pre.data ++ marker.data ++ rest.data = a ++ marker.data ++ b →
        pre.data.length ≤ a.length := by
      intro a b hab
      exact h2 a b (by rw [h1, hab])
    have hsplit : splitOnStr marker stdout = [pre, rest] := by
      rw [splitOnStr, h1]
      rw [splitAux_single marker.data hsep pre.data _ rest.data
        (Nat.lt_succ_self _) h2b h3]
      simp
    rw [parseIsolatedResult, hsplit]
    simp only [h4]
  · intro loads stdout stderr hno
    have hsplit : splitOnStr marker stdout = [stdout] := by
      rw [splitOnStr,
        splitAux_noOccur marker.data hsep (stdout.data.length + 1) stdout.data
          (Nat.lt_succ_self _) hno]
      simp
    rw [parseIsolatedResult, hsplit]

/-- Witness for C7 on a clean child transcript (`stdoutClean` = marker
followed by the payload) with the toy decoder: the parsed dict is returned
with the (empty) prior output and stderr attached; and on a transcript with
no marker the error dict is returned. -/
theorem parseIsolatedResult_spec_witness :
    parseIsolatedResult demoLoads stdoutClean "errtext" =
      dset (dset [("status", Value.str "success")] "stdout" (Value.str ""))
        "stderr" (Value.str "errtext") ∧
    parseIsolatedResult demoLoads "plain output" "e2" =
      [("status", Value.str "error"),
       ("error", Value.str "No execution result found"),
       ("stdout", Value.str "plain output"), ("stderr", Value.str "e2")] :=
  ⟨parseIsolatedResult_spec.1 demoLoads stdoutClean "errtext" "" "\nRESULTPAYLOAD\n"
      [("status", Value.str "success")] (by decide) (fun a b _ => Nat.zero_le _)
      (not_occurs_of_occursB_false _ _ (by decide)) rfl,
   parseIsolatedResult_spec.2 demoLoads "plain output" "e2"
      (not_occurs_of_occursB_false _ _ (by decide))⟩

/-- Counterexample to C7 as stated: in `stdoutCorrupted` the user's code
printed the marker itself before the real marker/payload, so the marker is
present (the split has three parts) and the genuine payload would parse
(`demoLoads` accepts it), yet the call returns the `"Failed to parse result"`
error dict — the structured result is not returned and prior program output
did corrupt the parse. -/
theorem parse_marker_corruption_counterexample :
    (splitOnStr marker stdoutCorrupted).length = 3 ∧
    demoLoads (stripStr "\nRESULTPAYLOAD\n") =
      some (Value.dict [("status", Value.str "success")]) ∧
    dget (parseIsolatedResult demoLoads stdoutCorrupted "") "status" =
      some (Value.str "error") ∧
    dget (parseIsolatedResult demoLoads stdoutCorrupted "") "error" =
      some (Value.str "Failed to parse result") :=
  ⟨by decide, rfl, rfl, rfl⟩

/-! ## The DFS walk of `_get_execution_order`: structural lemmas -/

theorem length_filter_le_of_imp (l : List α) (p q : α → Bool)
    (h : ∀ x ∈ l, p x = true → q x = true) :
    (l.filter p).length ≤ (l.filter q).length := by
  induction l with
  | nil => simp
  | cons x t ih =>
      have iht := ih (fun y hy => h y (List.mem_cons_of_mem _ hy))
      by_cases hp : p x = true
      · have hq := h x (List.mem_cons_self _ _) hp
        rw [List.filter_cons, if_pos hp, List.filter_cons, if_pos hq]
        simp only [List.length_cons]
        omega
      · rw [List.filter_cons, if_neg hp]
        by_cases hq : q x = true
        · rw [List.filter_cons, if_pos hq]
          simp only [List.length_cons]
          omega
        · rw [List.filter_cons, if_neg hq]
          exact iht

theorem unvisitedCount_mono (w : Workflow) (v1 v2 : List String)
    (h : ∀ x ∈ v1, x ∈ v2) : unvisitedCount w v2 ≤ unvisitedCount w v1 := by
  refine length_filter_le_of_imp _ _ _ (fun x _ hx => ?_)
  rw [decide_eq_true_eq] at hx ⊢
  exact fun hm => hx (h x hm)

theorem filter_notmem_snoc_lt (v : List String) (n : String) (hn : n ∉ v) :
    ∀ l : List String, n ∈ l →
      (l.filter (fun x => decide (x ∉ v ++ [n]))).length <
        (l.filter (fun x => decide (x ∉ v))).length := by
  intro l
  induction l with
  | nil => intro h; cases h
  | cons x t ih =>
      intro hmem
      by_cases hx : x = n
      · have h1 : ¬(decide (x ∉ v ++ [n]) = true) := by
          rw [hx]; simp
        have h2 : (decide (x ∉ v)) = true := by
          rw [hx]; simpa using hn
        rw [List.filter_cons, if_neg h1, List.filter_cons, if_pos h2]
        simp only [List.length_cons]
        have hle : (t.filter (fun y => decide (y ∉ v ++ [n]))).length ≤
            (t.filter (fun y => decide (y ∉ v))).length := by
          refine length_filter_le_of_imp _ _ _ (fun y _ hy => ?_)
          rw [decide_eq_true_eq] at hy ⊢
          exact fun hm => hy (by simp [hm])
        omega
      · have hnt : n ∈ t := by
          rcases List.mem_cons.mp hmem with h | h
          · exact absurd h.symm hx
          · exact h
        have hsame : (decide (x ∉ v ++ [n])) = (decide (x ∉ v)) := by
          by_cases hv : x ∈ v
          · simp [hv]
          · simp [hv, hx]
        rw [List.filter_cons, List.filter_cons, hsame]
        by_cases hd : decide (x ∉ v) = true
        · rw [if_pos hd, if_pos hd]
          simp only [List.length_cons]
          exact Nat.succ_lt_succ (ih hnt)
        · rw [if_neg hd, if_neg hd]
          exact ih hnt

theorem unvisitedCount_snoc_lt (w : Workflow) (v : List String) (n : String)
    (hn : n ∉ v) (hid : n ∈ nodeIds w) :
    unvisitedCount w (v ++ [n]) < unvisitedCount w v :=
  filter_notmem_snoc_lt v n hn (nodeIds w) hid

theorem unvisitedCount_le (w : Workflow) (v : List String) :
    unvisitedCount w v ≤ w.nodes.length := by
  calc unvisitedCount w v ≤ (nodeIds w).length := List.length_filter_le _ _
  _ = w.nodes.length := by rw [nodeIds, List.length_map]

theorem Ext_rfl (w : Workflow) (s : DfsState) : Ext w s s :=
  ⟨fun _ h => h, ⟨[], by simp⟩, fun _ h => Or.inl h, fun _ h1 h2 => ⟨h1, h2⟩,
    fun _ h => Or.inl h⟩

theorem Ext_trans (w : Workflow) (s1 s2 s3 : DfsState)
    (h12 : Ext w s1 s2) (h23 : Ext w s2 s3) : Ext w s1 s3 := by
  obtain ⟨m12, ⟨t12, ht12⟩, o12, g12, v12⟩ := h12
  obtain ⟨m23, ⟨t23, ht23⟩, o23, g23, v23⟩ := h23
  refine ⟨fun x hx => m23 x (m12 x hx), ⟨t12 ++ t23, by rw [ht23, ht12, List.append_assoc]⟩,
    ?_, ?_, ?_⟩
  · intro x hx
    rcases o23 x hx with h | h
    · exact o12 x h
    · exact Or.inr (fun hm => h (m12 x hm))
  · intro x h1 h2
    obtain ⟨ha, hb⟩ := g23 x h1 h2
    exact g12 x ha hb
  · intro x hx
    rcases v23 x hx with h | h
    · exact v12 x h
    · exact Or.inr h

theorem depsOf_subset_ids (w : Workflow) (wf : WellFormed w) (n : String) :
    ∀ d ∈ depsOf w n, d ∈ nodeIds w := by
  intro d hd
  rw [depsOf, List.mem_dedup] at hd
  rcases List.mem_map.mp hd with ⟨e, he, hsrc⟩
  rcases List.mem_filter.mp he with ⟨hmem, _⟩
  exact hsrc ▸ (wf.2 e hmem).1

theorem visit_basic (w : Workflow) (wf : WellFormed w) :
    ∀ fuel n s, n ∈ nodeIds w → InvB w s → unvisitedCount w s.1 < fuel →
      InvB w (visit w fuel n s) ∧ Ext w s (visit w fuel n s) ∧
        n ∈ (visit w fuel n s).1 := by
  intro fuel
  induction fuel with
  | zero => intro n s _ _ hlt; exact absurd hlt (Nat.not_lt_zero _)
  | succ fuel ih =>
      intro n s hn hinv hlt
      rw [visit]
      by_cases hmem : n ∈ s.1
      · rw [if_pos hmem]
        exact ⟨hinv, Ext_rfl w s, hmem⟩
      · rw [if_neg hmem]
        show InvB w
            (((depsOf w n).foldl (fun acc d => visit w fuel d acc) (s.1 ++ [n], s.2)).1,
             ((depsOf w n).foldl (fun acc d => visit w fuel d acc) (s.1 ++ [n], s.2)).2 ++ [n]) ∧
          Ext w s _ ∧ n ∈ _
        obtain ⟨hvo, hvi, hnd1, hnd2⟩ := hinv
        have hinv1 : InvB w ((s.1 ++ [n], s.2) : DfsState) := by
          refine ⟨fun x hx => List.mem_append_left _ (hvo x hx), fun x hx => ?_, ?_, hnd2⟩
          · rcases List.mem_append.mp hx with h | h
            · exact hvi x h
            · rw [List.mem_singleton.mp h]; exact hn
          · rw [List.nodup_append]
            exact ⟨hnd1, List.nodup_singleton _,
              fun x hx hx2 => hmem ((List.mem_singleton.mp hx2) ▸ hx)⟩
        have hfu1 : unvisitedCount w (s.1 ++ [n]) < fuel := by
          have hdec := unvisitedCount_snoc_lt w s.1 n hmem hn
          omega
        have hfold : ∀ ds : List String, (∀ d ∈ ds, d ∈ nodeIds w) →
            ∀ t : DfsState, InvB w t → unvisitedCount w t.1 < fuel →
              InvB w (ds.foldl (fun acc d => visit w fuel d acc) t) ∧
              Ext w t (ds.foldl (fun acc d => visit w fuel d acc) t) := by
          intro ds
          induction ds with
          | nil => intro _ t ht _; exact ⟨ht, Ext_rfl w t⟩
          | cons d ds ihds =>
              intro hds t ht hfu
              obtain ⟨hi2, he2, _⟩ := ih d t (hds d (List.mem_cons_self _ _)) ht hfu
              have hfu2 : unvisitedCount w (visit w fuel d t).1 < fuel :=
                lt_of_le_of_lt (unvisitedCount_mono w t.1 (visit w fuel d t).1 he2.1) hfu
              obtain ⟨hi3, he3⟩ :=
                ihds (fun d2 h2 => hds d2 (List.mem_cons_of_mem _ h2))
                  (visit w fuel d t) hi2 hfu2
              rw [List.foldl_cons]
              exact ⟨hi3, Ext_trans w _ _ _ he2 he3⟩
        obtain ⟨hi2, he2⟩ := hfold (depsOf w n) (depsOf_subset_ids w wf n)
          (s.1 ++ [n], s.2) hinv1 hfu1
        obtain ⟨m2, ⟨t2, ht2⟩, o2, g2, v2⟩ := he2
        have hn1 : n ∈ (s.1 ++ [n]) := List.mem_append_right _ (List.mem_singleton.mpr rfl)
        have hn2 : n ∈ ((depsOf w n).foldl (fun acc d => visit w fuel d acc)
            (s.1 ++ [n], s.2)).1 := m2 n hn1
        have hnotord : n ∉ ((depsOf w n).foldl (fun acc d => visit w fuel d acc)
            (s.1 ++ [n], s.2)).2 := by
          intro hcon
          rcases o2 n hcon with h | h
          · exact hmem (hvo n h)
          · exact h hn1
        obtain ⟨hi2o, hi2v, hi2n1, hi2n2⟩ := hi2
        refine ⟨⟨?_, hi2v, hi2n1, ?_⟩, ⟨?_, ?_, ?_, ?_, ?_⟩, hn2⟩
        · intro x hx
          rcases List.mem_append.mp hx with h | h
          · exact hi2o x h
          · rw [List.mem_singleton.mp h]; exact hn2
        · rw [List.nodup_append]
          exact ⟨hi2n2, List.nodup_singleton _,
            fun x hx hx2 => hnotord ((List.mem_singleton.mp hx2) ▸ hx)⟩
        · exact fun x hx => m2 x (List.mem_append_left _ hx)
        · exact ⟨t2 ++ [n], by simp [ht2]⟩
        · intro x hx
          rcases List.mem_append.mp hx with h | h
          · rcases o2 x h with h2 | h2
            · exact Or.inl h2
            · exact Or.inr (fun hm => h2 (List.mem_append_left _ hm))
          · rw [List.mem_singleton.mp h]
            exact Or.inr hmem
        · intro x h1 h2
          have hx2 : x ∉ ((depsOf w n).foldl (fun acc d => visit w fuel d acc)
              (s.1 ++ [n], s.2)).2 := fun hc => h2 (List.mem_append_left _ hc)
          have hxn : x ≠ n := fun hc => h2 (hc ▸ List.mem_append_right _
            (List.mem_singleton.mpr rfl))
          obtain ⟨ha, hb⟩ := g2 x h1 hx2
          rcases List.mem_append.mp ha with h3 | h3
          · exact ⟨h3, hb⟩
          · exact absurd (List.mem_singleton.mp h3) hxn
        · intro x hx
          rcases v2 x hx with h | h
          · rcases List.mem_append.mp h with h2 | h2
            · exact Or.inl h2
            · rw [List.mem_singleton.mp h2]; exact Or.inr hn
          · exact Or.inr h

theorem nodesFold_basic (w : Workflow) (wf : WellFormed w) :
    ∀ ns : List Node, (∀ nd ∈ ns, nd.id ∈ nodeIds w) →
      ∀ s, InvB w s →
        InvB w (ns.foldl (fun s node => visit w (w.nodes.length + 1) node.id s) s) ∧
        Ext w s (ns.foldl (fun s node => visit w (w.nodes.length + 1) node.id s) s) ∧
        ∀ nd ∈ ns, nd.id ∈
          (ns.foldl (fun s node => visit w (w.nodes.length + 1) node.id s) s).1 := by
  intro ns
  induction ns with
  | nil => intro _ s hs; exact ⟨hs, Ext_rfl w s, fun nd h => absurd h (List.not_mem_nil _)⟩
  | cons nd ns ih =>
      intro hids s hs
      have hfu : unvisitedCount w s.1 < w.nodes.length + 1 :=
        Nat.lt_succ_of_le (unvisitedCount_le w s.1)
      obtain ⟨hi2, he2, hn2⟩ := visit_basic w wf (w.nodes.length + 1) nd.id s
        (hids nd (List.mem_cons_self _ _)) hs hfu
      obtain ⟨hi3, he3, hm3⟩ := ih (fun nd2 h2 => hids nd2 (List.mem_cons_of_mem _ h2))
        (visit w (w.nodes.length + 1) nd.id s) hi2
      rw [List.foldl_cons]
      refine ⟨hi3, Ext_trans w _ _ _ he2 he3, fun nd2 h2 => ?_⟩
      rcases List.mem_cons.mp h2 with h3 | h3
      · exact h3 ▸ he3.1 nd.id hn2
      · exact hm3 nd2 h3

/-- On a well-formed graph the total-order walk terminates with every node
ordered exactly once: `_get_execution_order` is a permutation of the node ids
— whether or not the graph is cyclic, and with no error path at all. -/
theorem getExecutionOrder_complete (w : Workflow) (wf : WellFormed w) :
    (getExecutionOrder w).Nodup ∧
    ∀ x, x ∈ getExecutionOrder w ↔ x ∈ nodeIds w := by
  have hinit : InvB w (([], []) : DfsState) :=
    ⟨fun x h => absurd h (List.not_mem_nil _), fun x h => absurd h (List.not_mem_nil _),
      List.nodup_nil, List.nodup_nil⟩
  obtain ⟨hi, he, hm⟩ := nodesFold_basic w wf w.nodes
    (fun nd h => List.mem_map.mpr ⟨nd, h, rfl⟩) ([], []) hinit
  have hnogray : ∀ x ∈ (w.nodes.foldl
      (fun s node => visit w (w.nodes.length + 1) node.id s) (([], []) : DfsState)).1,
      x ∈ (w.nodes.foldl
        (fun s node => visit w (w.nodes.length + 1) node.id s) (([], []) : DfsState)).2 := by
    intro x hx
    by_contra hno
    exact absurd (he.2.2.2.1 x hx hno).1 (List.not_mem_nil x)
  constructor
  · exact hi.2.2.2
  · intro x
    constructor
    · intro hx
      exact hi.2.1 x (hi.1 x hx)
    · intro hx
      rcases List.mem_map.mp hx with ⟨nd, hnd, hid⟩
      exact hnogray x (hid ▸ hm nd hnd)

theorem depsOf_rank (w : Workflow) (rank : String → Nat)
    (hrank : ∀ e ∈ w.edges, rank e.source < rank e.target) (n d : String)
    (hd : d ∈ depsOf w n) : rank d < rank n := by
  rw [depsOf, List.mem_dedup] at hd
  rcases List.mem_map.mp hd with ⟨e, he, hsrc⟩
  rcases List.mem_filter.mp he with ⟨hmem, htgt⟩
  rw [decide_eq_true_eq] at htgt
  exact hsrc ▸ htgt ▸ hrank e hmem

theorem source_mem_depsOf (w : Workflow) (e : Edge) (he : e ∈ w.edges) :
    e.source ∈ depsOf w e.target := by
  rw [depsOf, List.mem_dedup]
  exact List.mem_map.mpr ⟨e, List.mem_filter.mpr ⟨he, by simp⟩, rfl⟩

theorem visit_topo (w : Workflow) (wf : WellFormed w) (rank : String → Nat)
    (hrank : ∀ e ∈ w.edges, rank e.source < rank e.target) :
    ∀ fuel n s, n ∈ nodeIds w → InvB w s → TopoRev w s.2.reverse →
      unvisitedCount w s.1 < fuel →
      (∀ x, x ∈ s.1 → x ∉ s.2 → rank n < rank x) →
      TopoRev w (visit w fuel n s).2.reverse ∧ n ∈ (visit w fuel n s).2 := by
  intro fuel
  induction fuel with
  | zero => intro n s _ _ _ hlt _; exact absurd hlt (Nat.not_lt_zero _)
  | succ fuel ih =>
      intro n s hn hinv htr hlt hgray
      rw [visit]
      by_cases hmem : n ∈ s.1
      · rw [if_pos hmem]
        refine ⟨htr, ?_⟩
        by_contra hno
        exact absurd (hgray n hmem hno) (lt_irrefl _)
      · rw [if_neg hmem]
        show TopoRev w
            ((((depsOf w n).foldl (fun acc d => visit w fuel d acc) (s.1 ++ [n], s.2)).2
              ++ [n]).reverse) ∧
          n ∈ (((depsOf w n).foldl (fun acc d => visit w fuel d acc) (s.1 ++ [n], s.2)).2
              ++ [n])
        obtain ⟨hvo, hvi, hnd1, hnd2⟩ := hinv
        have hinv1 : InvB w ((s.1 ++ [n], s.2) : DfsState) := by
          refine ⟨fun x hx => List.mem_append_left _ (hvo x hx), fun x hx => ?_, ?_, hnd2⟩
          · rcases List.mem_append.mp hx with h | h
            · exact hvi x h
            · rw [List.mem_singleton.mp h]; exact hn
          · rw [List.nodup_append]
            exact ⟨hnd1, List.nodup_singleton _,
              fun x hx hx2 => hmem ((List.mem_singleton.mp hx2) ▸ hx)⟩
        have hfu1 : unvisitedCount w (s.1 ++ [n]) < fuel := by
          have hdec := unvisitedCount_snoc_lt w s.1 n hmem hn
          omega
        have hgray1 : ∀ x, x ∈ (s.1 ++ [n]) → x ∉ s.2 →
            (x = n ∨ (x ∈ s.1 ∧ x ∉ s.2)) := by
          intro x hx hxo
          rcases List.mem_append.mp hx with h | h
          · exact Or.inr ⟨h, hxo⟩
          · exact Or.inl (List.mem_singleton.mp h)
        have hfold : ∀ ds : List String,
            (∀ d ∈ ds, d ∈ nodeIds w ∧ rank d < rank n) →
            ∀ t : DfsState, InvB w t → TopoRev w t.2.reverse →
              unvisitedCount w t.1 < fuel →
              (∀ x, x ∈ t.1 → x ∉ t.2 → (x = n ∨ (x ∈ s.1 ∧ x ∉ s.2))) →
              InvB w (ds.foldl (fun acc d => visit w fuel d acc) t) ∧
              Ext w t (ds.foldl (fun acc d => visit w fuel d acc) t) ∧
              TopoRev w ((ds.foldl (fun acc d => visit w fuel d acc) t)).2.reverse ∧
              (∀ x, x ∈ ((ds.foldl (fun acc d => visit w fuel d acc) t)).1 →
                 x ∉ ((ds.foldl (fun acc d => visit w fuel d acc) t)).2 →
                 (x = n ∨ (x ∈ s.1 ∧ x ∉ s.2))) ∧
              (∀ d ∈ ds, d ∈ ((ds.foldl (fun acc d => visit w fuel d acc) t)).2) := by
          intro ds
          induction ds with
          | nil =>
              intro _ t ht htt _ htg
              exact ⟨ht, Ext_rfl w t, htt, htg, fun d h => absurd h (List.not_mem_nil _)⟩
          | cons d ds ihds =>
              intro hds t ht htt hfu htg
              have hd := hds d (List.mem_cons_self _ _)
              have hgrayd : ∀ x, x ∈ t.1 → x ∉ t.2 → rank d < rank x := by
                intro x hx hxo
                rcases htg x hx hxo with h | h
                · exact h ▸ hd.2
                · exact lt_trans hd.2 (hgray x h.1 h.2)
              obtain ⟨htopo2, -⟩ := ih d t hd.1 ht htt hfu hgrayd
              obtain ⟨hi2, he2, hn2⟩ := visit_basic w wf fuel d t hd.1 ht hfu
              have hfu2 : unvisitedCount w (visit w fuel d t).1 < fuel :=
                lt_of_le_of_lt (unvisitedCount_mono w t.1 (visit w fuel d t).1 he2.1) hfu
              have htg2 : ∀ x, x ∈ (visit w fuel d t).1 → x ∉ (visit w fuel d t).2 →
                  (x = n ∨ (x ∈ s.1 ∧ x ∉ s.2)) := by
                intro x hx hxo
                obtain ⟨ha, hb⟩ := he2.2.2.2.1 x hx hxo
                exact htg x ha hb
              obtain ⟨hi3, he3, ht3, hg3, hm3⟩ :=
                ihds (fun d2 h2 => hds d2 (List.mem_cons_of_mem _ h2))
                  (visit w fuel d t) hi2 htopo2 hfu2 htg2
              rw [List.foldl_cons]
              refine ⟨hi3, Ext_trans w _ _ _ he2 he3, ht3, hg3, fun d2 h2 => ?_⟩
              rcases List.mem_cons.mp h2 with h3 | h3
              · have hdin : d ∈ (visit w fuel d t).2 := by
                  have := ih d t hd.1 ht htt hfu hgrayd
                  exact this.2
                obtain ⟨t3, ht3e⟩ := he3.2.1
                rw [ht3e, h3]
                exact List.mem_append_left _ hdin
              · exact hm3 d2 h3
        obtain ⟨hi2, he2, ht2, hg2, hm2⟩ := hfold (depsOf w n)
          (fun d hd => ⟨depsOf_subset_ids w wf n d hd, depsOf_rank w rank hrank n d hd⟩)
          (s.1 ++ [n], s.2) hinv1 htr hfu1 hgray1
        constructor
        · rw [List.reverse_append, List.reverse_singleton, List.singleton_append, TopoRev]
          refine ⟨fun d hd => List.mem_reverse.mpr (hm2 d hd), ht2⟩
        · exact List.mem_append_right _ (List.mem_singleton.mpr rfl)

theorem nodesFold_topo (w : Workflow) (wf : WellFormed w) (rank : String → Nat)
    (hrank : ∀ e ∈ w.edges, rank e.source < rank e.target) :
    ∀ ns : List Node, (∀ nd ∈ ns, nd.id ∈ nodeIds w) →
      ∀ s, InvB w s → TopoRev w s.2.reverse → (∀ x, x ∈ s.1 → x ∈ s.2) →
        TopoRev w
          ((ns.foldl (fun s node => visit w (w.nodes.length + 1) node.id s) s)).2.reverse := by
  intro ns
  induction ns with
  | nil => intro _ s _ htt _; exact htt
  | cons nd ns ih =>
      intro hids s hs htt hng
      have hfu : unvisitedCount w s.1 < w.nodes.length + 1 :=
        Nat.lt_succ_of_le (unvisitedCount_le w s.1)
      have hgray : ∀ x, x ∈ s.1 → x ∉ s.2 → rank nd.id < rank x := by
        intro x hx hxo
        exact absurd (hng x hx) hxo
      obtain ⟨ht2, -⟩ := visit_topo w wf rank hrank (w.nodes.length + 1) nd.id s
        (hids nd (List.mem_cons_self _ _)) hs htt hfu hgray
      obtain ⟨hi2, he2, -⟩ := visit_basic w wf (w.nodes.length + 1) nd.id s
        (hids nd (List.mem_cons_self _ _)) hs hfu
      have hng2 : ∀ x, x ∈ (visit w (w.nodes.length + 1) nd.id s).1 →
          x ∈ (visit w (w.nodes.length + 1) nd.id s).2 := by
        intro x hx
        by_contra hno
        obtain ⟨ha, hb⟩ := he2.2.2.2.1 x hx hno
        exact hb (hng x ha)
      rw [List.foldl_cons]
      exact ih (fun nd2 h2 => hids nd2 (List.mem_cons_of_mem _ h2))
        (visit w (w.nodes.length + 1) nd.id s) hi2 ht2 hng2

theorem topoRev_indexOf (w : Workflow) :
    ∀ l : List String, TopoRev w l → l.reverse.Nodup →
      ∀ t ∈ l.reverse, ∀ d ∈ depsOf w t,
        d ∈ l.reverse ∧ l.reverse.indexOf d < l.reverse.indexOf t := by
  intro l
  induction l with
  | nil => intro _ _ t ht; exact absurd ht (List.not_mem_nil _)
  | cons m rest ih =>
      intro htr hnd t ht d hd
      obtain ⟨hdeps, htrest⟩ := htr
      rw [List.reverse_cons] at ht hnd ⊢
      have hnd2 := hnd
      rw [List.nodup_append] at hnd2
      obtain ⟨hndr, -, hdisj⟩ := hnd2
      have hmnot : m ∉ rest.reverse := by
        intro hc
        exact hdisj hc (List.mem_singleton.mpr rfl)
      rcases List.mem_append.mp ht with htl | htm
      · obtain ⟨hdl, hidx⟩ := ih htrest hndr t htl d hd
        refine ⟨List.mem_append_left _ hdl, ?_⟩
        rw [List.indexOf_append_of_mem hdl, List.indexOf_append_of_mem htl]
        exact hidx
      · have htm2 : t = m := List.mem_singleton.mp htm
        subst htm2
        have hdl : d ∈ rest.reverse := List.mem_reverse.mpr (hdeps d hd)
        refine ⟨List.mem_append_left _ hdl, ?_⟩
        rw [List.indexOf_append_of_mem hdl, List.indexOf_append_of_not_mem hmnot]
        calc rest.reverse.indexOf d < rest.reverse.length :=
              List.indexOf_lt_length.mpr hdl
        _ ≤ rest.reverse.length + ([t].indexOf t) := Nat.le_add_right _ _

/-- C4: on every well-formed acyclic workflow graph, the total execution
order produced by `_get_execution_order` places the source of every edge
strictly before its target. -/
theorem executionOrder_respects_edges (w : Workflow) (wf : WellFormed w)
    (hacy : Acyclic w) :
    ∀ e ∈ w.edges,
      (getExecutionOrder w).indexOf e.source <
        (getExecutionOrder w).indexOf e.target := by
  obtain ⟨rank, hrank⟩ := hacy
  intro e he
  have hinit : InvB w (([], []) : DfsState) :=
    ⟨fun x h => absurd h (List.not_mem_nil _), fun x h => absurd h (List.not_mem_nil _),
      List.nodup_nil, List.nodup_nil⟩
  have htopo : TopoRev w (getExecutionOrder w).reverse := by
    rw [getExecutionOrder]
    exact nodesFold_topo w wf rank hrank w.nodes
      (fun nd h => List.mem_map.mpr ⟨nd, h, rfl⟩) ([], []) hinit trivial
      (fun x hx => absurd hx (List.not_mem_nil _))
  obtain ⟨hnodup, hmem⟩ := getExecutionOrder_complete w wf
  have htgt : e.target ∈ getExecutionOrder w := (hmem e.target).mpr (wf.2 e he).2
  have := topoRev_indexOf w (getExecutionOrder w).reverse htopo
    (by rw [List.reverse_reverse]; exact hnodup)
    e.target (by rw [List.reverse_reverse]; exact htgt)
    e.source (source_mem_depsOf w e he)
  rw [List.reverse_reverse] at this
  exact this.2

/-- Witness for C4 on the concrete well-formed acyclic chain `a → b`:
the order places `a` before `b`. -/
theorem executionOrder_respects_edges_witness :
    WellFormed wLin ∧ Acyclic wLin ∧
    (getExecutionOrder wLin).indexOf "a" < (getExecutionOrder wLin).indexOf "b" := by
  have hwf : WellFormed wLin := by
    constructor
    · decide
    · intro e he
      fin_cases he <;> exact ⟨by decide, by decide⟩
  have hacy : Acyclic wLin := by
    refine ⟨fun s => if s = "b" then 1 else 0, ?_⟩
    intro e he
    fin_cases he <;> decide
  refine ⟨hwf, hacy, ?_⟩
  exact executionOrder_respects_edges wLin hwf hacy
    ⟨"a", "b", Option.none, Option.none⟩ (by decide)

/-! ## `group_by_dependencies`: frontier and completed-set lemmas -/

theorem mem_frontier (plan : List PlanItem) (c : List String) (it : PlanItem) :
    it ∈ frontier plan c ↔
      it ∈ plan ∧ it.nodeId ∉ c ∧ ∀ d ∈ it.dependencies, d ∈ c := by
  rw [frontier, List.mem_filter, Bool.and_eq_true, decide_eq_true_eq, List.all_eq_true]
  constructor
  · rintro ⟨h1, h2, h3⟩
    exact ⟨h1, h2, fun d hd => decide_eq_true_eq.mp (h3 d hd)⟩
  · rintro ⟨h1, h2, h3⟩
    exact ⟨h1, h2, fun d hd => decide_eq_true_eq.mpr (h3 d hd)⟩

theorem mem_addIds (g : List PlanItem) :
    ∀ (c : List String) (x : String),
      x ∈ addIds c g ↔ x ∈ c ∨ ∃ it ∈ g, it.nodeId = x := by
  induction g with
  | nil => intro c x; simp [addIds]
  | cons it g ih =>
      intro c x
      rw [addIds, List.foldl_cons]
      have hstep : (if it.nodeId ∈ c then c else c ++ [it.nodeId]) =
          (if it.nodeId ∈ c then c else c ++ [it.nodeId]) := rfl
      by_cases hc : it.nodeId ∈ c
      · rw [if_pos hc]
        rw [show List.foldl (fun c it => if it.nodeId ∈ c then c else c ++ [it.nodeId]) c g
            = addIds c g from rfl, ih c x]
        constructor
        · rintro (h | ⟨it2, h2, h3⟩)
          · exact Or.inl h
          · exact Or.inr ⟨it2, List.mem_cons_of_mem _ h2, h3⟩
        · rintro (h | ⟨it2, h2, h3⟩)
          · exact Or.inl h
          · rcases List.mem_cons.mp h2 with h4 | h4
            · exact Or.inl (by rw [← h3, h4]; exact hc)
            · exact Or.inr ⟨it2, h4, h3⟩
      · rw [if_neg hc]
        rw [show List.foldl (fun c it => if it.nodeId ∈ c then c else c ++ [it.nodeId])
            (c ++ [it.nodeId]) g = addIds (c ++ [it.nodeId]) g from rfl,
          ih (c ++ [it.nodeId]) x]
        constructor
        · rintro (h | ⟨it2, h2, h3⟩)
          · rcases List.mem_append.mp h with h4 | h4
            · exact Or.inl h4
            · exact Or.inr ⟨it, List.mem_cons_self _ _, (List.mem_singleton.mp h4).symm⟩
          · exact Or.inr ⟨it2, List.mem_cons_of_mem _ h2, h3⟩
        · rintro (h | ⟨it2, h2, h3⟩)
          · exact Or.inl (List.mem_append_left _ h)
          · rcases List.mem_cons.mp h2 with h4 | h4
            · exact Or.inl (List.mem_append_right _
                (List.mem_singleton.mpr (by rw [← h3, h4])))
            · exact Or.inr ⟨it2, h4, h3⟩

theorem addIds_length_le (g : List PlanItem) :
    ∀ c : List String, c.length ≤ (addIds c g).length := by
  induction g with
  | nil => intro c; exact le_refl _
  | cons it g ih =>
      intro c
      rw [addIds, List.foldl_cons]
      by_cases hc : it.nodeId ∈ c
      · rw [if_pos hc]; exact ih c
      · rw [if_neg hc]
        calc c.length ≤ (c ++ [it.nodeId]).length := by simp
        _ ≤ _ := ih (c ++ [it.nodeId])

theorem addIds_length_lt (g : List PlanItem) (it : PlanItem) :
    ∀ c : List String, it ∈ g → it.nodeId ∉ c →
      c.length < (addIds c g).length := by
  induction g with
  | nil => intro c hg _; cases hg
  | cons it2 g ih =>
      intro c hg hit
      rw [addIds, List.foldl_cons]
      by_cases hc : it2.nodeId ∈ c
      · rw [if_pos hc]
        rcases List.mem_cons.mp hg with h | h
        · exact absurd (h ▸ hc) hit
        · exact ih c h hit
      · rw [if_neg hc]
        calc c.length < (c ++ [it2.nodeId]).length := by simp
        _ ≤ _ := addIds_length_le g (c ++ [it2.nodeId])

theorem addIds_nodup (g : List PlanItem) :
    ∀ c : List String, c.Nodup → (addIds c g).Nodup := by
  induction g with
  | nil => intro c hc; exact hc
  | cons it g ih =>
      intro c hc
      rw [addIds, List.foldl_cons]
      by_cases hmem : it.nodeId ∈ c
      · rw [if_pos hmem]; exact ih c hc
      · rw [if_neg hmem]
        refine ih (c ++ [it.nodeId]) ?_
        rw [List.nodup_append]
        exact ⟨hc, List.nodup_singleton _,
          fun x hx hx2 => hmem ((List.mem_singleton.mp hx2) ▸ hx)⟩

theorem addIds_subset_ids (g : List PlanItem) (plan : List PlanItem)
    (hg : ∀ it ∈ g, it ∈ plan) (c : List String)
    (hc : ∀ x ∈ c, x ∈ plan.map PlanItem.nodeId) :
    ∀ x ∈ addIds c g, x ∈ plan.map PlanItem.nodeId := by
  intro x hx
  rcases (mem_addIds g c x).mp hx with h | ⟨it, hit, hid⟩
  · exact hc x h
  · exact hid ▸ List.mem_map.mpr ⟨it, hg it hit, rfl⟩

theorem groupLoop_ok (plan : List PlanItem) :
    ∀ (fuel : Nat) (c : List String), GroupsOK plan c (groupLoop plan fuel c) := by
  intro fuel
  induction fuel with
  | zero => intro c; exact trivial
  | succ fuel ih =>
      intro c
      rw [groupLoop]
      by_cases hlen : c.length < plan.length
      · rw [if_pos hlen]
        by_cases hemp : (frontier plan c).isEmpty = true
        · rw [if_pos hemp]; exact trivial
        · rw [if_neg hemp]
          refine ⟨fun it hit => ?_, ih (addIds c (frontier plan c))⟩
          obtain ⟨h1, h2, h3⟩ := (mem_frontier plan c it).mp hit
          exact ⟨h1, h2, h3⟩
      · rw [if_neg hlen]; exact trivial

theorem groupsOK_not_completed (plan : List PlanItem) :
    ∀ (gs : List (List PlanItem)) (c : List String), GroupsOK plan c gs →
      ∀ g ∈ gs, ∀ it ∈ g, it ∈ plan ∧ it.nodeId ∉ c := by
  intro gs
  induction gs with
  | nil => intro c _ g hg; exact absurd hg (List.not_mem_nil _)
  | cons g0 gs ih =>
      intro c hok g hg it hit
      obtain ⟨hhead, htail⟩ := hok
      rcases List.mem_cons.mp hg with h | h
      · obtain ⟨h1, h2, -⟩ := hhead it (h ▸ hit)
        exact ⟨h1, h2⟩
      · obtain ⟨h1, h2⟩ := ih (addIds c g0) htail g h it hit
        refine ⟨h1, fun hc => h2 ?_⟩
        exact (mem_addIds g0 c it.nodeId).mpr (Or.inl hc)

theorem groupsOK_decomp (plan : List PlanItem) :
    ∀ (p : List (List PlanItem)) (c : List String) (g : List PlanItem)
      (rest : List (List PlanItem)),
      GroupsOK plan c (p ++ g :: rest) →
      (∀ it ∈ g, it ∈ plan ∧ it.nodeId ∉ addAll c p ∧
        ∀ d ∈ it.dependencies, d ∈ addAll c p) ∧
      GroupsOK plan (addIds (addAll c p) g) rest := by
  intro p
  induction p with
  | nil =>
      intro c g rest hok
      exact ⟨hok.1, hok.2⟩
  | cons g0 p ih =>
      intro c g rest hok
      obtain ⟨-, htail⟩ := hok
      have := ih (addIds c g0) g rest htail
      rw [addAll, List.foldl_cons] at *
      exact this

theorem mem_addAll (p : List (List PlanItem)) :
    ∀ (c : List String) (x : String),
      x ∈ addAll c p ↔ x ∈ c ∨ ∃ g ∈ p, ∃ it ∈ g, it.nodeId = x := by
  induction p with
  | nil => intro c x; simp [addAll]
  | cons g0 p ih =>
      intro c x
      rw [addAll, List.foldl_cons,
        show List.foldl addIds (addIds c g0) p = addAll (addIds c g0) p from rfl,
        ih (addIds c g0) x, mem_addIds]
      constructor
      · rintro ((h | ⟨it, hit, hid⟩) | ⟨g, hg, it, hit, hid⟩)
        · exact Or.inl h
        · exact Or.inr ⟨g0, List.mem_cons_self _ _, it, hit, hid⟩
        · exact Or.inr ⟨g, List.mem_cons_of_mem _ hg, it, hit, hid⟩
      · rintro (h | ⟨g, hg, it, hit, hid⟩)
        · exact Or.inl (Or.inl h)
        · rcases List.mem_cons.mp hg with h2 | h2
          · exact Or.inl (Or.inr ⟨it, h2 ▸ hit, hid⟩)
          · exact Or.inr ⟨g, h2, it, hit, hid⟩

theorem exists_min_by (rank : String → Nat) :
    ∀ l : List PlanItem, l ≠ [] →
      ∃ m ∈ l, ∀ u ∈ l, rank m.nodeId ≤ rank u.nodeId := by
  intro l
  induction l with
  | nil => intro h; exact absurd rfl h
  | cons x t ih =>
      intro _
      by_cases ht : t = []
      · subst ht
        refine ⟨x, List.mem_cons_self _ _, fun u hu => ?_⟩
        rcases List.mem_cons.mp hu with h | h
        · rw [h]
        · exact absurd h (List.not_mem_nil _)
      · obtain ⟨m, hm, hmin⟩ := ih ht
        by_cases hx : rank x.nodeId ≤ rank m.nodeId
        · refine ⟨x, List.mem_cons_self _ _, fun u hu => ?_⟩
          rcases List.mem_cons.mp hu with h | h
          · rw [h]
          · exact le_trans hx (hmin u h)
        · refine ⟨m, List.mem_cons_of_mem _ hm, fun u hu => ?_⟩
          rcases List.mem_cons.mp hu with h | h
          · rw [h]; exact le_of_not_le hx
          · exact hmin u h

theorem groupLoop_covers (plan : List PlanItem) (rank : String → Nat)
    (hrank : ∀ it ∈ plan, ∀ d ∈ it.dependencies, rank d < rank it.nodeId)
    (hnd : (plan.map PlanItem.nodeId).Nodup)
    (hclosed : ∀ it ∈ plan, ∀ d ∈ it.dependencies, d ∈ plan.map PlanItem.nodeId) :
    ∀ (fuel : Nat) (c : List String), c.Nodup →
      (∀ x ∈ c, x ∈ plan.map PlanItem.nodeId) →
      plan.length - c.length < fuel →
      ∀ it ∈ plan, it.nodeId ∉ c →
        ∃ g ∈ groupLoop plan fuel c, it ∈ g := by
  intro fuel
  induction fuel with
  | zero => intro c _ _ hflt; omega
  | succ fuel ih =>
      intro c hcnd hcsub hflt it hit hitc
      by_cases hlen : c.length < plan.length
      · have hSne : plan.filter (fun u => decide (u.nodeId ∉ c)) ≠ [] := by
          intro hS
          have : it ∈ plan.filter (fun u => decide (u.nodeId ∉ c)) :=
            List.mem_filter.mpr ⟨hit, decide_eq_true_eq.mpr hitc⟩
          rw [hS] at this
          exact absurd this (List.not_mem_nil _)
        obtain ⟨m, hmS, hmin⟩ := exists_min_by rank _ hSne
        obtain ⟨hmp, hmc⟩ := List.mem_filter.mp hmS
        rw [decide_eq_true_eq] at hmc
        have hmdeps : ∀ d ∈ m.dependencies, d ∈ c := by
          intro d hd
          by_contra hdc
          rcases List.mem_map.mp (hclosed m hmp d hd) with ⟨u, hu, huid⟩
          have huS : u ∈ plan.filter (fun v => decide (v.nodeId ∉ c)) :=
            List.mem_filter.mpr ⟨hu, decide_eq_true_eq.mpr (huid.symm ▸ hdc)⟩
          have h1 := hmin u huS
          have h2 := hrank m hmp d hd
          rw [huid] at h1
          omega
        have hmf : m ∈ frontier plan c :=
          (mem_frontier plan c m).mpr ⟨hmp, hmc, hmdeps⟩
        have hemp : ¬(frontier plan c).isEmpty = true := by
          intro hc2
          rw [List.isEmpty_iff] at hc2
          rw [hc2] at hmf
          exact absurd hmf (List.not_mem_nil _)
        rw [groupLoop, if_pos hlen, if_neg hemp]
        by_cases hinf : it ∈ frontier plan c
        · exact ⟨frontier plan c, List.mem_cons_self _ _, hinf⟩
        · have hnotadded : it.nodeId ∉ addIds c (frontier plan c) := by
            intro hc2
            rcases (mem_addIds (frontier plan c) c it.nodeId).mp hc2 with h | ⟨it2, hit2, hid2⟩
            · exact hitc h
            · have hit2p : it2 ∈ plan := ((mem_frontier plan c it2).mp hit2).1
              have : it2 = it := List.inj_on_of_nodup_map hnd hit2p hit hid2
              exact hinf (this ▸ hit2)
          have hlt : c.length < (addIds c (frontier plan c)).length :=
            addIds_length_lt (frontier plan c) m c hmf hmc
          obtain ⟨g, hg, hing⟩ := ih (addIds c (frontier plan c))
            (addIds_nodup _ c hcnd)
            (addIds_subset_ids _ plan (fun it2 h2 => ((mem_frontier plan c it2).mp h2).1)
              c hcsub)
            (by omega) it hit hnotadded
          exact ⟨g, List.mem_cons_of_mem _ hg, hing⟩
      · exfalso
        have hsub : c.toFinset ⊆ (plan.map PlanItem.nodeId).toFinset := by
          intro x hx
          exact List.mem_toFinset.mpr (hcsub x (List.mem_toFinset.mp hx))
        have hcard : (plan.map PlanItem.nodeId).toFinset.card ≤ c.toFinset.card := by
          rw [List.toFinset_card_of_nodup hcnd, List.toFinset_card_of_nodup hnd,
            List.length_map]
          omega
        have heq := Finset.eq_of_subset_of_card_le hsub hcard
        have : it.nodeId ∈ c.toFinset := by
          rw [heq]
          exact List.mem_toFinset.mpr (List.mem_map.mpr ⟨it, hit, rfl⟩)
        exact hitc (List.mem_toFinset.mp this)

/-- The amended C5: the parallel grouping assigns each plan item to at most
one group — later groups never repeat a node id — and every grouped item's
dependencies are the node ids of items in strictly earlier groups; when the
plan's dependency relation is acyclic, closed (every dependency id is some
plan item's id) and node ids are distinct, each item is assigned to
exactly one group.  (On a cyclic plan an item can be assigned to no group at
all: `groupByDependencies_cycle_counterexample`.) -/
theorem groupByDependencies_spec (plan : List PlanItem) :
    (∀ g ∈ groupByDependencies plan, ∀ it ∈ g, it ∈ plan) ∧
    (∀ p g rest, groupByDependencies plan = p ++ g :: rest →
      ∀ it ∈ g,
        (∀ d ∈ it.dependencies, ∃ gd ∈ p, ∃ itd ∈ gd, itd.nodeId = d) ∧
        (∀ g2 ∈ rest, ∀ it2 ∈ g2, it2.nodeId ≠ it.nodeId)) ∧
    ((plan.map PlanItem.nodeId).Nodup →
      (∀ it ∈ plan, ∀ d ∈ it.dependencies, d ∈ plan.map PlanItem.nodeId) →
      PlanAcyclic plan →
      ∀ it ∈ plan, ∃ g ∈ groupByDependencies plan, it ∈ g) := by
  refine ⟨?_, ?_, ?_⟩
  · intro g hg it hit
    exact (groupsOK_not_completed plan (groupByDependencies plan) []
      (groupLoop_ok plan (plan.length + 1) []) g hg it hit).1
  · intro p g rest heq it hit
    have hok : GroupsOK plan [] (p ++ g :: rest) := by
      rw [← heq]
      exact groupLoop_ok plan (plan.length + 1) []
    obtain ⟨hhead, htail⟩ := groupsOK_decomp plan p [] g rest hok
    obtain ⟨-, -, hdeps⟩ := hhead it hit
    constructor
    · intro d hd
      rcases (mem_addAll p [] d).mp (hdeps d hd) with h | h
      · exact absurd h (List.not_mem_nil _)
      · exact h
    · intro g2 hg2 it2 hit2 hne
      have h2 := (groupsOK_not_completed plan rest _ htail g2 hg2 it2 hit2).2
      exact h2 ((mem_addIds g (addAll [] p) it2.nodeId).mpr
        (Or.inr ⟨it, hit, hne.symm⟩))
  · intro hnd hclosed hacy it hit
    obtain ⟨rank, hrank⟩ := hacy
    exact groupLoop_covers plan rank hrank hnd hclosed (plan.length + 1) []
      List.nodup_nil (fun x hx => absurd hx (List.not_mem_nil _))
      (by omega) it hit (List.not_mem_nil _)

/-- Counterexample to C5 as stated: on the cyclic two-item plan the grouping
produces no groups at all, so the plan's nodes are assigned to zero groups,
not exactly one. -/
theorem groupByDependencies_cycle_counterexample :
    groupByDependencies planCyc = [] ∧
    (⟨"a", "worker", false, ["b"], 30⟩ : PlanItem) ∈ planCyc :=
  ⟨by decide, by decide⟩

/-- Witness for C5 on the plan `d, e → f`: `f`'s dependency `d` names an item
of the strictly earlier group, and `f` is assigned to a group. -/
theorem groupByDependencies_spec_witness :
    (∃ gd ∈ [[(⟨"d", "worker", false, [], 30⟩ : PlanItem),
              ⟨"e", "worker", false, [], 30⟩]],
      ∃ itd ∈ gd, PlanItem.nodeId itd = "d") ∧
    (∃ g ∈ groupByDependencies planDEF,
      (⟨"f", "worker", false, ["d", "e"], 30⟩ : PlanItem) ∈ g) := by
  constructor
  · have h := ((groupByDependencies_spec planDEF).2.1
      [[⟨"d", "worker", false, [], 30⟩, ⟨"e", "worker", false, [], 30⟩]]
      [⟨"f", "worker", false, ["d", "e"], 30⟩] [] (by decide)
      ⟨"f", "worker", false, ["d", "e"], 30⟩ (by decide)).1
    exact h "d" (by decide)
  · exact (groupByDependencies_spec planDEF).2.2 (by decide)
      (by decide)
      ⟨fun s => if s = "f" then 1 else 0, by decide⟩
      ⟨"f", "worker", false, ["d", "e"], 30⟩ (by decide)

/-- The amended C1: plan construction never hangs on a cyclic graph, but it
also raises no error.  The total-order walk's visited set makes it skip any
re-encountered node, and on every well-formed graph — cyclic or not — it
terminates having emitted every node exactly once (there is no error path in
`_get_execution_order` at all); the parallel grouping's empty-frontier exit
silently truncates: the returned groups contain only plan items (each at
most once), and the unscheduled remainder is dropped without being reported
(`getExecutionOrder_cycle_counterexample` shows the truncation on a concrete
cycle). -/
theorem planConstruction_cycle_behaviour :
    (∀ w : Workflow, WellFormed w →
      (getExecutionOrder w).Nodup ∧
      ∀ x, x ∈ getExecutionOrder w ↔ x ∈ nodeIds w) ∧
    (∀ plan : List PlanItem, ∀ g ∈ groupByDependencies plan, ∀ it ∈ g, it ∈ plan) := by
  constructor
  · exact fun w wf => getExecutionOrder_complete w wf
  · intro plan g hg it hit
    exact (groupsOK_not_completed plan (groupByDependencies plan) []
      (groupLoop_ok plan (plan.length + 1) []) g hg it hit).1

/-- Witness for the amended C1 at the concrete cyclic graph `wCyc`. -/
theorem planConstruction_cycle_behaviour_witness :
    (getExecutionOrder wCyc).Nodup ∧
    ("a" ∈ getExecutionOrder wCyc ↔ "a" ∈ nodeIds wCyc) ∧
    (∀ g ∈ groupByDependencies planCyc, ∀ it ∈ g, it ∈ planCyc) := by
  have hwf : WellFormed wCyc := by
    constructor
    · decide
    · intro e he
      fin_cases he <;> exact ⟨by decide, by decide⟩
  exact ⟨(planConstruction_cycle_behaviour.1 wCyc hwf).1,
    (planConstruction_cycle_behaviour.1 wCyc hwf).2 "a",
    planConstruction_cycle_behaviour.2 planCyc⟩

/-- Counterexample to C1 as stated: on the cyclic graph `wCyc` the
total-order walk returns the ordinary order `["b", "a"]` — no distinct cycle
error is raised (the code has no error path) — and on the cyclic plan the
grouping returns `[]`, silently truncating a non-empty plan instead of
reporting the cycle. -/
theorem getExecutionOrder_cycle_counterexample :
    getExecutionOrder wCyc = ["b", "a"] ∧
    groupByDependencies planCyc = [] ∧ planCyc ≠ [] :=
  ⟨by decide, by decide, by decide⟩

/-! ## The run loop: decomposition and frame lemmas -/

theorem runNodes_append (w : Workflow) (oracle : ExecOracle) :
    ∀ (l1 l2 : List String) (s : RunState),
      runNodes w oracle (l1 ++ l2) s =
        (match runNodes w oracle l1 s with
         | (t, Option.none) => runNodes w oracle l2 t
         | (t, some e) => (t, some e)) := by
  intro l1
  induction l1 with
  | nil => intro l2 s; rfl
  | cons n l1 ih =>
      intro l2 s
      rw [List.cons_append, runNodes, runNodes]
      cases hrn : runNode w oracle n s with
      | mk s2 r =>
          cases r with
          | none => exact ih l2 s2
          | some e => rfl

theorem runNode_frame (w : Workflow) (oracle : ExecOracle) (n : String)
    (s : RunState) (k : String) (hk : k ≠ n) :
    dget (runNode w oracle n s).1.execution.node_executions k =
      dget s.execution.node_executions k := by
  rw [runNode]
  cases hfind : w.nodes.find? (fun nd => nd.id = n) with
  | none => rfl
  | some node =>
      cases horacle : oracle node
          (collectInputData node w s.nodeOutputs s.execution.context) with
      | ok out =>
          simp only [horacle]
          rw [dget_dmodify, if_neg (fun h => hk h.symm),
            dget_dmodify, if_neg (fun h => hk h.symm)]
      | error msg =>
          simp only [horacle]
          rw [dget_dmodify, if_neg (fun h => hk h.symm),
            dget_dmodify, if_neg (fun h => hk h.symm)]

theorem runNodes_frame (w : Workflow) (oracle : ExecOracle) :
    ∀ (l : List String) (s : RunState) (k : String), k ∉ l →
      dget (runNodes w oracle l s).1.execution.node_executions k =
        dget s.execution.node_executions k := by
  intro l
  induction l with
  | nil => intro s k _; rfl
  | cons n l ih =>
      intro s k hk
      have hkn : k ≠ n := fun h => hk (h ▸ List.mem_cons_self _ _)
      have hkl : k ∉ l := fun h => hk (List.mem_cons_of_mem _ h)
      rw [runNodes]
      cases hrn : runNode w oracle n s with
      | mk s2 r =>
          cases r with
          | none =>
              have := runNode_frame w oracle n s k hkn
              rw [hrn] at this
              rw [ih s2 k hkl, this]
          | some e =>
              have := runNode_frame w oracle n s k hkn
              rw [hrn] at this
              exact this

theorem foldl_dset_init :
    ∀ (ns : List Node) (m : List (String × NodeExecution)) (k : String),
      dget (ns.foldl (fun m nd => dset m nd.id (initNodeExecution nd.id)) m) k =
        if k ∈ ns.map Node.id then some (initNodeExecution k) else dget m k := by
  intro ns
  induction ns with
  | nil => intro m k; simp
  | cons nd ns ih =>
      intro m k
      rw [List.foldl_cons, ih]
      by_cases hmem : k ∈ ns.map Node.id
      · rw [if_pos hmem, if_pos (by simp [hmem])]
      · rw [if_neg hmem, dget_dset]
        by_cases hk : nd.id = k
        · rw [if_pos hk, if_pos (by simp [hk.symm]), hk]
        · rw [if_neg hk, if_neg (by
            simp only [List.map_cons, List.mem_cons]
            rintro (h | h)
            · exact hk h.symm
            · exact hmem h)]

/-- `runNode` on an executor error: the record under the node's key is marked
Running then Failed with `str(e)` preserved, the error log entry is appended,
and the loop exception is `msg` exactly when `continueOnError` is unset. -/
theorem runNode_fail_eq (w : Workflow) (oracle : ExecOracle) (n : String)
    (node : Node) (s : RunState) (msg : String)
    (hfind : w.nodes.find? (fun nd => nd.id = n) = some node)
    (horacle : oracle node (collectInputData node w s.nodeOutputs s.execution.context)
      = Except.error msg) :
    runNode w oracle n s =
      (⟨{ s.execution with
          node_executions := dmodify
            (dmodify s.execution.node_executions n
              (fun ne => { ne with
                input_data := collectInputData node w s.nodeOutputs s.execution.context
                status := NodeExecutionStatus.running
                started_at := some s.clock })) n
            (fun ne => { ne with
              status := NodeExecutionStatus.failed
              error := some msg
              completed_at := some (s.clock + 1) })
          logs := s.execution.logs ++
            [⟨"error", Option.none, "Node " ++ node.label ++ " failed: " ++ msg,
              some [("node_id", Value.str n)]⟩] },
        s.nodeOutputs, s.clock + 2⟩,
       if continueOnError w then Option.none else some msg) := by
  rw [runNode, hfind]
  simp only [horacle]

/-- C3: when a node's executor raises, the coordinator marks that node Failed
with the error message preserved on its record and appends an error log
entry; under the default policy (`continueOnError` unset) the remaining plan
entries are aborted — the instance is marked Failed with that message and
every downstream node of the order keeps its untouched Waiting record, never
Success — while under the opt-in policy the run continues with exactly the
remaining nodes from the post-failure state. -/
theorem nodeFailure_semantics
    (w : Workflow) (oracle : ExecOracle) (eid wid mode : String)
    (tb : Option String) (ctx : PyDict) (now clock0 : Nat)
    (pre post : List String) (n : String) (node : Node) (s1 : RunState)
    (msg : String)
    (wf : WellFormed w)
    (horder : getExecutionOrder w = pre ++ n :: post)
    (hpre : runNodes w oracle pre
      ⟨{ createExecution w eid wid mode tb ctx now with
          status := ExecutionStatus.running }, [], clock0⟩ = (s1, Option.none))
    (hfind : w.nodes.find? (fun nd => nd.id = n) = some node)
    (horacle : oracle node (collectInputData node w s1.nodeOutputs s1.execution.context)
      = Except.error msg) :
    (continueOnError w = false →
      (runWorkflow w oracle (createExecution w eid wid mode tb ctx now)
          clock0).execution.status = ExecutionStatus.failed ∧
      (runWorkflow w oracle (createExecution w eid wid mode tb ctx now)
          clock0).execution.error = some msg ∧
      (∃ ne, dget (runWorkflow w oracle (createExecution w eid wid mode tb ctx now)
          clock0).execution.node_executions n = some ne ∧
        ne.status = NodeExecutionStatus.failed ∧ ne.error = some msg) ∧
      (∃ lg ∈ (runWorkflow w oracle (createExecution w eid wid mode tb ctx now)
          clock0).execution.logs,
        lg.level = "error" ∧
        lg.message = "Node " ++ node.label ++ " failed: " ++ msg) ∧
      (∀ m ∈ post, dget (runWorkflow w oracle (createExecution w eid wid mode tb ctx now)
          clock0).execution.node_executions m = some (initNodeExecution m))) ∧
    (continueOnError w = true →
      runWorkflow w oracle (createExecution w eid wid mode tb ctx now) clock0 =
        finishRun (runNodes w oracle post (runNode w oracle n s1).1)) := by
  have hrw : runWorkflow w oracle (createExecution w eid wid mode tb ctx now) clock0 =
      finishRun (runNodes w oracle (getExecutionOrder w)
        ⟨{ createExecution w eid wid mode tb ctx now with
            status := ExecutionStatus.running }, [], clock0⟩) := rfl
  have hsplit : runNodes w oracle (getExecutionOrder w)
      ⟨{ createExecution w eid wid mode tb ctx now with
          status := ExecutionStatus.running }, [], clock0⟩ =
      runNodes w oracle (n :: post) s1 := by
    rw [horder, runNodes_append, hpre]
  have hnodup : (pre ++ n :: post).Nodup := by
    have := (getExecutionOrder_complete w wf).1
    rwa [horder] at this
  have hmemiff := (getExecutionOrder_complete w wf).2
  rw [List.nodup_append] at hnodup
  obtain ⟨-, hnodup2, hdisj⟩ := hnodup
  have hnpre : n ∉ pre := fun hc => hdisj hc (List.mem_cons_self _ _)
  have hnids : n ∈ nodeIds w := (hmemiff n).mp
    (by rw [horder]; exact List.mem_append_right _ (List.mem_cons_self _ _))
  have hstartmap : ∀ k, k ∈ nodeIds w →
      dget (createExecution w eid wid mode tb ctx now).node_executions k =
        some (initNodeExecution k) := by
    intro k hk
    show dget (w.nodes.foldl (fun m nd => dset m nd.id (initNodeExecution nd.id)) []) k =
      some (initNodeExecution k)
    rw [foldl_dset_init]
    rw [if_pos (show k ∈ w.nodes.map Node.id from hk)]
  have hs1n : dget s1.execution.node_executions n = some (initNodeExecution n) := by
    have hfr := runNodes_frame w oracle pre
      ⟨{ createExecution w eid wid mode tb ctx now with
          status := ExecutionStatus.running }, [], clock0⟩ n hnpre
    rw [hpre] at hfr
    rw [hfr]
    exact hstartmap n hnids
  have hrneq := runNode_fail_eq w oracle n node s1 msg hfind horacle
  constructor
  · intro hco
    rw [hco] at hrneq
    simp only [Bool.false_eq_true, if_false] at hrneq
    have hloop : runNodes w oracle (n :: post) s1 = runNode w oracle n s1 := by
      rw [runNodes, hrneq]
    rw [hrw, hsplit, hloop, hrneq, finishRun]
    refine ⟨rfl, rfl, ?_, ?_, ?_⟩
    · show ∃ ne, dget (dmodify (dmodify s1.execution.node_executions n
          (fun ne => { ne with
            input_data := collectInputData node w s1.nodeOutputs s1.execution.context
            status := NodeExecutionStatus.running
            started_at := some s1.clock })) n
          (fun ne => { ne with
            status := NodeExecutionStatus.failed
            error := some msg
            completed_at := some (s1.clock + 1) })) n = some ne ∧
        ne.status = NodeExecutionStatus.failed ∧ ne.error = some msg
      rw [dget_dmodify, if_pos rfl, dget_dmodify, if_pos rfl, hs1n]
      exact ⟨_, rfl, rfl, rfl⟩
    · refine ⟨⟨"error", Option.none,
        "Node " ++ node.label ++ " failed: " ++ msg,
        some [("node_id", Value.str n)]⟩, ?_, rfl, rfl⟩
      show _ ∈ (s1.execution.logs ++ _) ++ _
      exact List.mem_append_left _
        (List.mem_append_right _ (List.mem_singleton.mpr rfl))
    · intro m hm
      have hmn : m ≠ n := by
        intro hc
        rw [List.nodup_cons] at hnodup2
        exact hnodup2.1 (hc ▸ hm)
      have hmpre : m ∉ pre := fun hc =>
        hdisj hc (List.mem_cons_of_mem _ hm)
      have hmids : m ∈ nodeIds w := (hmemiff m).mp
        (by rw [horder]
            exact List.mem_append_right _ (List.mem_cons_of_mem _ hm))
      show dget (dmodify (dmodify s1.execution.node_executions n _) n _) m = _
      rw [dget_dmodify, if_neg (fun h => hmn h.symm),
        dget_dmodify, if_neg (fun h => hmn h.symm)]
      have hfr := runNodes_frame w oracle pre
        ⟨{ createExecution w eid wid mode tb ctx now with
            status := ExecutionStatus.running }, [], clock0⟩ m hmpre
      rw [hpre] at hfr
      rw [hfr]
      exact hstartmap m hmids
  · intro hco
    rw [hco] at hrneq
    simp only [if_true] at hrneq
    rw [hrw, hsplit, runNodes, hrneq]

/-- Witness for C3 on the chain `a → b → c` where `b`'s executor raises
`boom` and the policy is the default: the instance is Failed with the
message, `b`'s record is Failed with the message, the error log entry is
present, and `c`'s record is untouched (Waiting). -/
theorem nodeFailure_semantics_witness :
    (runWorkflow wC3 oracleC3 (createExecution wC3 "e1" "w1" "manual" Option.none [] 0)
        1).execution.status = ExecutionStatus.failed ∧
    (runWorkflow wC3 oracleC3 (createExecution wC3 "e1" "w1" "manual" Option.none [] 0)
        1).execution.error = some "boom" ∧
    (∃ ne, dget (runWorkflow wC3 oracleC3
        (createExecution wC3 "e1" "w1" "manual" Option.none [] 0)
        1).execution.node_executions "b" = some ne ∧
      ne.status = NodeExecutionStatus.failed ∧ ne.error = some "boom") ∧
    (∃ lg ∈ (runWorkflow wC3 oracleC3
        (createExecution wC3 "e1" "w1" "manual" Option.none [] 0) 1).execution.logs,
      lg.level = "error" ∧ lg.message = "Node " ++ "B" ++ " failed: " ++ "boom") ∧
    (∀ m ∈ ["c"], dget (runWorkflow wC3 oracleC3
        (createExecution wC3 "e1" "w1" "manual" Option.none [] 0)
        1).execution.node_executions m = some (initNodeExecution m)) := by
  have hwf : WellFormed wC3 := by
    constructor
    · decide
    · intro e he
      fin_cases he <;> exact ⟨by decide, by decide⟩
  have h := nodeFailure_semantics wC3 oracleC3 "e1" "w1" "manual" Option.none [] 0 1
    ["a"] ["c"] "b" ⟨"b", "B"⟩ c3s1 "boom" hwf (by decide) rfl (by decide) rfl
  exact h.1 rfl

/-! ## C2 — cancellation of a running instance (code bug)

`stop_execution` (engine.py lines 331-336) flips the stored status to
Cancelled but stores no task handle and cancels nothing — its own comment on
line 336 records that the cancellation of the running task is still to be
added.  The run loop never re-reads `execution.status`, so after a
cancellation request it keeps starting Waiting nodes, and on completion the
final `execution.status = SUCCESS` assignment (line 163) overwrites
Cancelled.  `c2Mid` is the engine state of the two-node chain `a → b` at the
await point right after node `a` finished; `c2Final` resumes the remaining
plan after `stop_execution` ran at that point. -/

/-- C2 evaluated at the failing input: the instance is Running when
cancellation is requested and is duly flipped to Cancelled, yet resuming the
(uncancelled) run task starts the Waiting node `b`, marks it Success, and
ends with the instance Success — not Cancelled, and the remaining node did
not stay Waiting/Skipped. -/
theorem stopExecution_ineffective :
    c2Mid.execution.status = ExecutionStatus.running ∧
    (dget (stopExecution [("e1", c2Mid.execution)] "e1") "e1").map
        WorkflowExecution.status = some ExecutionStatus.cancelled ∧
    c2Final.execution.status = ExecutionStatus.success ∧
    c2Final.execution.status ≠ ExecutionStatus.cancelled ∧
    (dget c2Final.execution.node_executions "b").map NodeExecution.status =
      some NodeExecutionStatus.success :=
  ⟨rfl, rfl, rfl, by decide, rfl⟩

end One
